import Mathlib

/-!
Verification of `MatrixFunctional`
(src/linear_solvers/observables/matrix_functional.py).

The component estimates the functional xᵀ·A·x of a solution vector x for a
tridiagonal symmetric Toeplitz matrix A = Toeplitz(off_diag, main_diag,
off_diag).  It exposes four operations: `observable` (a list of 2n+1
operator descriptors), `observable_circuit` (a list of 2n+1 basis-change
circuits), `post_processing` (recombination of the measured expectation
values), and `evaluate_classically` (direct classical evaluation of the
bilinear form).

Numbers are embedded as rationals (the Python code computes with floats;
all the arithmetic appearing in the claims is exact).  Complex values that
may flow into `post_processing` are embedded as pairs of rationals `CQ`.
Python dynamic typing of the `solution` argument of `post_processing` is
embedded as the sum type `PyValue`; Python exceptions as `PyRes`.
-/

/-- A complex number with rational real and imaginary parts.  Models the
Python complex floats that can appear in the `solution` list handed to
`post_processing` (expectation values evaluated by the backend). -/
@[ext]
structure CQ where
  re : ℚ
  im : ℚ
deriving DecidableEq

instance : Zero CQ := ⟨⟨0, 0⟩⟩

instance : Add CQ := ⟨fun a b => ⟨a.re + b.re, a.im + b.im⟩⟩

instance : Sub CQ := ⟨fun a b => ⟨a.re - b.re, a.im - b.im⟩⟩

/-- Embeds a real (rational) value as a complex value. -/
def CQ.ofRat (x : ℚ) : CQ := ⟨x, 0⟩

/-- Division of a complex value by a real scalar (`z / scaling**2`). -/
def CQ.divQ (z : CQ) (s : ℚ) : CQ := ⟨z.re / s, z.im / s⟩

/-- Multiplication of a complex value by a real scalar
(`self._main_diag * main_val`). -/
def CQ.smulQ (s : ℚ) (z : CQ) : CQ := ⟨s * z.re, s * z.im⟩

@[simp] theorem CQ.zero_re : (0 : CQ).re = 0 := rfl

@[simp] theorem CQ.zero_im : (0 : CQ).im = 0 := rfl

@[simp] theorem CQ.add_re (a b : CQ) : (a + b).re = a.re + b.re := rfl

@[simp] theorem CQ.add_im (a b : CQ) : (a + b).im = a.im + b.im := rfl

@[simp] theorem CQ.sub_re (a b : CQ) : (a - b).re = a.re - b.re := rfl

@[simp] theorem CQ.sub_im (a b : CQ) : (a - b).im = a.im - b.im := rfl

instance : AddCommMonoid CQ where
  add_assoc a b c := by ext <;> simp [add_assoc]
  zero_add a := by ext <;> simp
  add_zero a := by ext <;> simp
  add_comm a b := by ext <;> simp [add_comm]
  nsmul := nsmulRec

/-- An operator descriptor: a number of qubits together with a matrix,
kept as a total function on ℕ × ℕ that vanishes outside
`[0, 2^numQubits) × [0, 2^numQubits)`.  Models qiskit's
`quantum_info.Operator` as used by `MatrixFunctional.observable`. -/
@[ext]
structure Op where
  numQubits : ℕ
  mat : ℕ → ℕ → ℚ

/-- `Operator.from_label("I")`: the 2 × 2 identity. -/
def Iop : Op := ⟨1, fun k l => if k = l ∧ k < 2 then 1 else 0⟩

/-- `Operator.from_label("Z")`: the 2 × 2 Pauli Z. -/
def Zop : Op := ⟨1, fun k l => if k = l ∧ k < 2 then (if k = 0 then 1 else -1) else 0⟩

/-- Entrywise sum of two operators (qiskit `Operator.__add__`; both
operands in the source always have the same dimension). -/
def opAdd (A B : Op) : Op := ⟨A.numQubits, fun k l => A.mat k l + B.mat k l⟩

/-- Entrywise difference of two operators. -/
def opSub (A B : Op) : Op := ⟨A.numQubits, fun k l => A.mat k l - B.mat k l⟩

/-- Entrywise division of an operator by 2 (`(I + Z) / 2`). -/
def opHalf (A : Op) : Op := ⟨A.numQubits, fun k l => A.mat k l / 2⟩

/-- `A.tensor(B)`: qiskit tensor product; `B` occupies the least
significant qubit positions. -/
def Op.tensor (A B : Op) : Op :=
  ⟨A.numQubits + B.numQubits,
   fun k l => A.mat (k / 2 ^ B.numQubits) (l / 2 ^ B.numQubits) *
     B.mat (k % 2 ^ B.numQubits) (l % 2 ^ B.numQubits)⟩

/-- `zero_op = (Operator.from_label("I") + Operator.from_label("Z")) / 2`. -/
def zero_op : Op := opHalf (opAdd Iop Zop)

/-- `one_op = (Operator.from_label("I") - Operator.from_label("Z")) / 2`. -/
def one_op : Op := opHalf (opSub Iop Zop)

/-- The body of the `for i in range(num_qubits)` loop of
`MatrixFunctional.observable`: the two operators appended for index `i`
(`[zero_case, one_case]`, or the `else` branch when `i = 0`). -/
def obsPair (num_qubits i : ℕ) : List Op :=
  let j := num_qubits - i - 1
  let prefix_op :=
    if j > 0 then (List.range (j - 1)).foldl (fun op _ => op.tensor Iop) Iop else Iop
  if i > 0 then
    let suffix_op := (List.range (i - 1)).foldl (fun op _ => op.tensor one_op) one_op
    [(prefix_op.tensor zero_op).tensor suffix_op,
     (prefix_op.tensor one_op).tensor suffix_op]
  else
    [prefix_op.tensor zero_op, prefix_op.tensor one_op]

/-- `MatrixFunctional.observable`: the norm operator followed by the
zero/one projector pair for every qubit index. -/
def observable (num_qubits : ℕ) : List Op :=
  let norm_op := (List.range (num_qubits - 1)).foldl (fun op _ => op.tensor Iop) Iop
  norm_op :: (List.range num_qubits).flatMap (obsPair num_qubits)

/-- A gate of the basis-change circuits: `qc.cx(control, target)` or
`qc.h(q)`. -/
inductive Gate where
  | cx (control target : ℕ)
  | h (q : ℕ)
deriving DecidableEq

/-- A quantum circuit: a qubit count and an ordered gate list (the only
state of a qiskit `QuantumCircuit` that `observable_circuit` touches). -/
structure QuantumCircuit where
  num_qubits : ℕ
  gates : List Gate
deriving DecidableEq

/-- `MatrixFunctional.observable_circuit`: the empty circuit followed by,
for each `i`, twice the circuit `cx(i, 0) … cx(i, i-1); h(i)`. -/
def observable_circuit (num_qubits : ℕ) : List QuantumCircuit :=
  ⟨num_qubits, []⟩ :: (List.range num_qubits).flatMap (fun i =>
    let qc : QuantumCircuit :=
      ⟨num_qubits, (List.range i).map (fun j => Gate.cx i j) ++ [Gate.h i]⟩
    [qc, qc])

/-- A Python exception raised by `post_processing`: the explicit
`ValueError` of the isinstance check, or the `IndexError` of an
out-of-range list access. -/
inductive PyError where
  | valueError
  | indexError
deriving DecidableEq

/-- Result of a Python call: a value or a raised exception. -/
inductive PyRes (α : Type) where
  | ok (val : α)
  | error (err : PyError)
deriving DecidableEq

/-- The possible runtime types of the `solution` argument of
`post_processing` (typed `Union[float, List[float]]`, but Python lets any
value through): a bare scalar, a Python `list`, or a non-`list` sequence
such as a tuple or a numpy array. -/
inductive PyValue where
  | float (x : ℚ)
  | pyList (xs : List CQ)
  | pySeq (xs : List CQ)
deriving DecidableEq

/-- `solution[i]`: list indexing, raising `IndexError` out of range. -/
def pyIndex (sol : List CQ) (i : ℕ) : PyRes CQ :=
  match sol.get? i with
  | some v => PyRes.ok v
  | none => PyRes.error PyError.indexError

/-- One iteration of the `for i in range(1, len(solution), 2)` loop of
`post_processing`: `off_val += (solution[i] - solution[i+1]) / (scaling**2)`. -/
def offValStep (sol : List CQ) (scaling : ℚ) (acc : PyRes CQ) (i : ℕ) : PyRes CQ :=
  match acc with
  | PyRes.error e => PyRes.error e
  | PyRes.ok a =>
    match pyIndex sol i, pyIndex sol (i + 1) with
    | PyRes.ok si, PyRes.ok si1 => PyRes.ok (a + CQ.divQ (si - si1) (scaling ^ 2))
    | PyRes.error e, _ => PyRes.error e
    | PyRes.ok _, PyRes.error e => PyRes.error e

/-- `range(1, len, 2)`: the odd indices below `len`. -/
def offRange (len : ℕ) : List ℕ := (List.range len).filter (fun i => i % 2 = 1)

/-- The accumulated `off_val` of `post_processing` (starting from `0.0`). -/
def offVal (sol : List CQ) (scaling : ℚ) : PyRes CQ :=
  (offRange sol.length).foldl (offValStep sol scaling) (PyRes.ok 0)

/-- `MatrixFunctional.post_processing`: rejects a non-`list` solution with
`ValueError`, accumulates `off_val` over the odd indices, reads
`main_val = solution[0] / scaling**2`, and returns
`np.real(main_diag * main_val + off_diag * off_val)`.  `num_qubits` is
accepted but never read. -/
def post_processing (main_diag off_diag : ℚ) (solution : PyValue)
    (num_qubits : ℕ) (scaling : ℚ) : PyRes ℚ :=
  match solution with
  | PyValue.pyList sol =>
    match offVal sol scaling with
    | PyRes.error e => PyRes.error e
    | PyRes.ok ov =>
      match pyIndex sol 0 with
      | PyRes.error e => PyRes.error e
      | PyRes.ok s0 =>
        PyRes.ok (CQ.smulQ main_diag (CQ.divQ s0 (scaling ^ 2)) +
          CQ.smulQ off_diag ov).re
  | _ => PyRes.error PyError.valueError

/-- The dense tridiagonal matrix built by
`diags([off_diag, main_diag, off_diag], [-1, 0, 1], shape=(m, m)).toarray()`:
`main_diag` on the diagonal, `off_diag` on the two adjacent diagonals,
zero elsewhere (and outside the `m × m` range). -/
def tridiagMat (main_diag off_diag : ℚ) (m : ℕ) : ℕ → ℕ → ℚ :=
  fun r c =>
    if r < m ∧ c < m then
      if r = c then main_diag
      else if r = c + 1 ∨ c = r + 1 then off_diag
      else 0
    else 0

/-- `np.dot(matrix, solution)` for an `m × m` matrix given entrywise. -/
def matvec (A : ℕ → ℕ → ℚ) (m : ℕ) (x : List ℚ) : List ℚ :=
  (List.range m).map (fun r => ∑ c ∈ Finset.range m, A r c * x.getD c 0)

/-- `np.dot(u, v)` for two vectors. -/
def dotL (u v : List ℚ) : ℚ := ((u.zip v).map (fun p => p.1 * p.2)).sum

/-- `MatrixFunctional.evaluate_classically` on a numeric vector:
`np.dot(solution.transpose(), np.dot(matrix, solution))` with the
tridiagonal matrix of dimension `len(solution)`.  (The `QuantumCircuit`
branch of the source resolves the circuit to its statevector through the
external `qiskit.quantum_info.Statevector` facility and then runs this
same computation; the claims only concern the numeric-vector path.) -/
def evaluate_classically (main_diag off_diag : ℚ) (solution : List ℚ) : ℚ :=
  let m := solution.length
  dotL solution (matvec (tridiagMat main_diag off_diag m) m solution)

/-!
Exact noiseless execution semantics.

The spec delegates circuit execution to an external collaborator ("an
operator-execution capability: given a circuit and an observable, return a
real expectation value").  The following definitions give that external
capability its standard mathematical meaning, so that the round-trip
claim can be stated: a state is the amplitude vector of the prepared
solution; `Gate.cx`/`Gate.h` act by the usual CNOT and Hadamard unitaries;
the expectation value of an observable `O` in a state `ψ` is `ψᵀ O ψ`.

To stay inside exact rational arithmetic the `1/√2` of each Hadamard is
kept symbolically: a state is a pair `(v, e)` representing the amplitude
vector `v / (√2)^e`.  Expectation values then carry the factor `1 / 2^e`,
which is exact.  A state over `n` qubits is a total function on ℕ that
vanishes from `2^n` on; an observable of a larger dimension reads those
zero amplitudes for the out-of-range basis states.
-/

/-- Flips bit `q` of the basis-state index `k`
(`2^q` is subtracted when the bit is set, added when it is clear). -/
def flipBit (q k : ℕ) : ℕ := if (k / 2 ^ q) % 2 = 1 then k - 2 ^ q else k + 2 ^ q

/-- Applies one gate to a scaled state `(v, e)` (the state `v / (√2)^e`):
`cx c t` sends amplitude `v k` to the index with bit `t` flipped whenever
bit `c` of `k` is set; `h q` combines the two amplitudes that differ in
bit `q` and increments the `√2` exponent. -/
def applyGate : Gate → (ℕ → ℚ) × ℕ → (ℕ → ℚ) × ℕ
  | Gate.cx c t, (v, e) =>
    (fun k => v (if (k / 2 ^ c) % 2 = 1 then flipBit t k else k), e)
  | Gate.h q, (v, e) =>
    (fun k =>
      if (k / 2 ^ q) % 2 = 1 then v (k - 2 ^ q) - v k else v k + v (k + 2 ^ q),
     e + 1)

/-- The amplitude vector of the exactly prepared solution state: `x`
zero-extended to a total function on basis-state indices. -/
def prepState (x : List ℚ) : ℕ → ℚ := fun k => x.getD k 0

/-- Runs all gates of a circuit on a (scaled) initial amplitude vector. -/
def runCircuit (qc : QuantumCircuit) (v : ℕ → ℚ) : (ℕ → ℚ) × ℕ :=
  qc.gates.foldl (fun s g => applyGate g s) (v, 0)

/-- The exact expectation value of an observable after running a circuit
on the prepared state: `ψᵀ O ψ` for `ψ` the final state, summed over the
observable's own index range. -/
def expectation (obs : Op) (qc : QuantumCircuit) (x : List ℚ) : ℚ :=
  let s := runCircuit qc (prepState x)
  (∑ k ∈ Finset.range (2 ^ obs.numQubits), ∑ l ∈ Finset.range (2 ^ obs.numQubits),
    s.1 k * obs.mat k l * s.1 l) / 2 ^ s.2

/-- The ordered list of the 2n+1 exact expectation values: each generated
circuit composed with the exact preparation of `x` and evaluated against
its paired observable, in the common ordering of `observable` and
`observable_circuit`. -/
def pipelineResults (num_qubits : ℕ) (x : List ℚ) : List ℚ :=
  ((observable num_qubits).zip (observable_circuit num_qubits)).map
    (fun p => expectation p.1 p.2 x)

/-! Basic facts about `CQ`. -/

@[simp] theorem CQ.ofRat_re (x : ℚ) : (CQ.ofRat x).re = x := rfl

@[simp] theorem CQ.ofRat_im (x : ℚ) : (CQ.ofRat x).im = 0 := rfl

@[simp] theorem CQ.divQ_re (z : CQ) (s : ℚ) : (z.divQ s).re = z.re / s := rfl

@[simp] theorem CQ.divQ_im (z : CQ) (s : ℚ) : (z.divQ s).im = z.im / s := rfl

@[simp] theorem CQ.smulQ_re (a : ℚ) (z : CQ) : (CQ.smulQ a z).re = a * z.re := rfl

@[simp] theorem CQ.smulQ_im (a : ℚ) (z : CQ) : (CQ.smulQ a z).im = a * z.im := rfl

/-- Taking real parts commutes with sums. -/
def CQ.reHom : CQ →+ ℚ where
  toFun := CQ.re
  map_zero' := rfl
  map_add' _ _ := rfl

theorem CQ.re_sum {ι : Type} (s : Finset ι) (f : ι → CQ) :
    (∑ i ∈ s, f i).re = ∑ i ∈ s, (f i).re :=
  map_sum CQ.reHom f s

theorem CQ.ofRat_sub (a b : ℚ) : CQ.ofRat a - CQ.ofRat b = CQ.ofRat (a - b) := by
  ext <;> simp

/-! Sums over `List.range`. -/

theorem list_sum_range {M : Type} [AddCommMonoid M] (f : ℕ → M) :
    ∀ m, ((List.range m).map f).sum = ∑ k ∈ Finset.range m, f k := by
  intro m
  induction m with
  | zero => simp
  | succ m ih =>
    rw [List.range_succ, List.map_append, List.sum_append, Finset.sum_range_succ, ih]
    simp

/-! Analysis of the `post_processing` loop. -/

theorem pyIndex_lt (sol : List CQ) (i : ℕ) (h : i < sol.length) :
    pyIndex sol i = PyRes.ok (sol.getD i 0) := by
  rw [pyIndex, List.get?_eq_get h, List.getD_eq_get sol 0 h]

theorem pyIndex_ge (sol : List CQ) (i : ℕ) (h : sol.length ≤ i) :
    pyIndex sol i = PyRes.error PyError.indexError := by
  rw [pyIndex, List.get?_eq_none.mpr h]

/-- The `range(1, len, 2)` loop index list at an odd length `2m+1`. -/
theorem offRange_odd : ∀ m, offRange (2 * m + 1) = (List.range m).map (fun k => 2 * k + 1) := by
  intro m
  induction m with
  | zero => rfl
  | succ m ih =>
    have h3 : 2 * (m + 1) + 1 = (2 * m + 1) + 1 + 1 := by ring
    have e1 : List.range (2 * m + 1 + 1) = List.range (2 * m + 1) ++ [2 * m + 1] :=
      List.range_succ _
    have e2 : List.range (2 * m + 1 + 1 + 1) = List.range (2 * m + 1 + 1) ++ [2 * m + 1 + 1] :=
      List.range_succ _
    have e3 : List.range (m + 1) = List.range m ++ [m] := List.range_succ _
    rw [offRange] at ih
    rw [offRange, h3, e2, e1, List.filter_append, List.filter_append, ih, e3,
      List.map_append]
    have ho : (2 * m + 1) % 2 = 1 := by omega
    have he : (2 * m + 1 + 1) % 2 = 0 := by omega
    simp [List.filter_cons, ho, he]

/-- The loop index list at an even length `2m+2`: the odd-length list
followed by the extra index `2m+1` whose partner is out of range. -/
theorem offRange_even (m : ℕ) :
    offRange (2 * m + 2) = (List.range m).map (fun k => 2 * k + 1) ++ [2 * m + 1] := by
  have h3 : 2 * m + 2 = (2 * m + 1) + 1 := by ring
  rw [h3, offRange, List.range_succ, List.filter_append]
  have := offRange_odd m
  rw [offRange] at this
  rw [this]
  have ho : (2 * m + 1) % 2 = 1 := by omega
  simp [List.filter_cons, ho]

/-- Folding the loop body over in-range indices succeeds and accumulates
the pairwise differences. -/
theorem offValStep_fold_ok (sol : List CQ) (s : ℚ) :
    ∀ (ks : List ℕ) (a : CQ), (∀ i ∈ ks, i + 1 < sol.length) →
      ks.foldl (offValStep sol s) (PyRes.ok a)
        = PyRes.ok (a + (ks.map
            (fun i => CQ.divQ (sol.getD i 0 - sol.getD (i + 1) 0) (s ^ 2))).sum) := by
  intro ks
  induction ks with
  | nil => intro a _; simp
  | cons i ks ih =>
    intro a h
    have hi1 : i + 1 < sol.length := h i (List.mem_cons_self i ks)
    have hi : i < sol.length := Nat.lt_of_succ_lt hi1
    have hrest : ∀ j ∈ ks, j + 1 < sol.length := fun j hj => h j (List.mem_cons_of_mem i hj)
    rw [List.foldl_cons, offValStep, pyIndex_lt sol i hi, pyIndex_lt sol (i + 1) hi1,
      ih _ hrest, List.map_cons, List.sum_cons, add_assoc]

/-- `off_val` on a list of odd length `2m+1`: the loop stays in range and
returns the sum of the scaled pair differences. -/
theorem offVal_odd (sol : List CQ) (s : ℚ) (m : ℕ) (hlen : sol.length = 2 * m + 1) :
    offVal sol s = PyRes.ok (∑ k ∈ Finset.range m,
      CQ.divQ (sol.getD (2 * k + 1) 0 - sol.getD (2 * k + 2) 0) (s ^ 2)) := by
  have h : ∀ i ∈ (List.range m).map (fun k => 2 * k + 1), i + 1 < sol.length := by
    intro i hi
    rw [List.mem_map] at hi
    obtain ⟨k, hk, rfl⟩ := hi
    rw [List.mem_range] at hk
    omega
  rw [offVal, hlen, offRange_odd m, offValStep_fold_ok sol s _ 0 h, List.map_map,
    zero_add, list_sum_range]
  congr 1

/-- `off_val` on a list of even length `2m+2`: the final loop iteration
reads past the end and raises `IndexError`. -/
theorem offVal_even (sol : List CQ) (s : ℚ) (m : ℕ) (hlen : sol.length = 2 * m + 2) :
    offVal sol s = PyRes.error PyError.indexError := by
  rw [offVal, hlen, offRange_even m, List.foldl_append]
  rw [offValStep_fold_ok sol s _ 0 ?_]
  · rw [List.foldl_cons, offValStep, pyIndex_lt sol (2 * m + 1) (by omega),
      pyIndex_ge sol (2 * m + 1 + 1) (by omega)]
    rfl
  · intro i hi
    rw [List.mem_map] at hi
    obtain ⟨k, hk, rfl⟩ := hi
    rw [List.mem_range] at hk
    omega

/-- `post_processing` on a `list` of odd length returns, without error,
the real part of `main_diag * solution[0]/s² + off_diag * off_val`. -/
theorem post_processing_odd (main_diag off_diag : ℚ) (sol : List CQ)
    (num_qubits : ℕ) (s : ℚ) (m : ℕ) (hlen : sol.length = 2 * m + 1) :
    post_processing main_diag off_diag (PyValue.pyList sol) num_qubits s
      = PyRes.ok ((CQ.smulQ main_diag (CQ.divQ (sol.getD 0 0) (s ^ 2)) +
          CQ.smulQ off_diag (∑ k ∈ Finset.range m,
            CQ.divQ (sol.getD (2 * k + 1) 0 - sol.getD (2 * k + 2) 0) (s ^ 2))).re) := by
  rw [post_processing, offVal_odd sol s m hlen, pyIndex_lt sol 0 (by omega)]

/-- `post_processing` on a `list` of even length `2m+2` raises
`IndexError` from the loop. -/
theorem post_processing_even (main_diag off_diag : ℚ) (sol : List CQ)
    (num_qubits : ℕ) (s : ℚ) (m : ℕ) (hlen : sol.length = 2 * m + 2) :
    post_processing main_diag off_diag (PyValue.pyList sol) num_qubits s
      = PyRes.error PyError.indexError := by
  rw [post_processing, offVal_even sol s m hlen]

/-! Diagonal normal forms of the generated observables.  Every operator
produced by `observable` is diagonal; the following closed forms of the
iteratively tensored operators drive the expectation-value computation. -/

/-- The diagonal operator with diagonal `d` on `m` qubits. -/
def diagOp (m : ℕ) (d : ℕ → ℚ) : Op := ⟨m, fun k l => if k = l then d k else 0⟩

/-- Combining 0/1-valued indicator factors into one indicator. -/
theorem indMul (A B C : Prop) [Decidable A] [Decidable B] [Decidable C]
    (h : (A ∧ B) ↔ C) :
    (if A then (1 : ℚ) else 0) * (if B then 1 else 0) = if C then 1 else 0 := by
  by_cases hA : A
  · by_cases hB : B
    · have hC : C := h.mp ⟨hA, hB⟩
      simp [hA, hB, hC]
    · have hC : ¬C := fun hc => hB (h.mpr hc).2
      simp [hA, hB, hC]
  · have hC : ¬C := fun hc => hA (h.mpr hc).1
    simp [hA, hC]

/-- Tensor product of diagonal operators is diagonal, with the diagonal
split by division and remainder on the low factor's dimension. -/
theorem diag_tensor (a b : ℕ) (α β : ℕ → ℚ) :
    (diagOp a α).tensor (diagOp b β)
      = diagOp (a + b) (fun k => α (k / 2 ^ b) * β (k % 2 ^ b)) := by
  unfold diagOp Op.tensor
  ext k l
  · rfl
  simp only
  by_cases hkl : k = l
  · subst hkl
    simp
  · have hsplit : ¬(k / 2 ^ b = l / 2 ^ b) ∨ ¬(k % 2 ^ b = l % 2 ^ b) := by
      by_contra hc
      push_neg at hc
      obtain ⟨h1, h2⟩ := hc
      apply hkl
      have hk := Nat.div_add_mod k (2 ^ b)
      have hl := Nat.div_add_mod l (2 ^ b)
      rw [h1, h2] at hk
      omega
    rcases hsplit with h1 | h2
    · simp [h1, hkl]
    · simp [h2, hkl]

theorem Iop_diag : Iop = diagOp 1 (fun k => if k < 2 then 1 else 0) := by
  unfold Iop diagOp
  ext k l
  · rfl
  simp only
  by_cases hkl : k = l
  · subst hkl
    by_cases hk : k < 2 <;> simp [hk]
  · simp [hkl]

theorem zero_op_diag : zero_op = diagOp 1 (fun k => if k = 0 then 1 else 0) := by
  unfold zero_op opHalf opAdd Iop Zop diagOp
  ext k l
  · rfl
  simp only
  by_cases hkl : k = l
  · subst hkl
    by_cases h0 : k = 0
    · subst h0
      norm_num
    · by_cases h2 : k < 2 <;> simp [h0, h2]
  · simp [hkl]

theorem one_op_diag : one_op = diagOp 1 (fun k => if k = 1 then 1 else 0) := by
  unfold one_op opHalf opSub Iop Zop diagOp
  ext k l
  · rfl
  simp only
  by_cases hkl : k = l
  · subst hkl
    by_cases h0 : k = 0
    · subst h0
      norm_num
    · by_cases h2 : k < 2
      · have h1 : k = 1 := by omega
        subst h1
        norm_num
      · have h1 : ¬(k = 1) := by omega
        simp [h1, h2]
  · simp [hkl]

/-- The iterated `prefix_op`/`norm_op` chain: tensoring `t` further
identities onto an identity block. -/
theorem foldl_tensor_Iop : ∀ (t s : ℕ),
    (List.range t).foldl (fun op _ => op.tensor Iop)
        (diagOp s (fun k => if k < 2 ^ s then 1 else 0))
      = diagOp (s + t) (fun k => if k < 2 ^ (s + t) then 1 else 0) := by
  intro t
  induction t with
  | zero => intro s; rfl
  | succ t ih =>
    intro s
    rw [List.range_succ, List.foldl_append, ih s, List.foldl_cons, List.foldl_nil,
      Iop_diag, diag_tensor]
    have hc : s + (t + 1) = s + t + 1 := by omega
    rw [hc]
    congr 1
    funext k
    have hiff : (k / 2 ^ 1 < 2 ^ (s + t) ∧ k % 2 ^ 1 < 2) ↔ k < 2 ^ (s + t + 1) := by
      have hd := Nat.div_add_mod k 2
      have hm : k % 2 < 2 := Nat.mod_lt _ (by omega)
      have hp : (2 : ℕ) ^ (s + t + 1) = 2 * 2 ^ (s + t) := by
        rw [pow_succ]
        ring
      constructor
      · intro ⟨h1, _⟩
        rw [pow_one] at h1
        omega
      · intro h1
        rw [pow_one]
        omega
    exact indMul _ _ _ hiff

/-- The iterated `suffix_op` chain: tensoring `t` further `one_op`
projectors onto an all-ones projector block. -/
theorem foldl_tensor_one_op : ∀ (t s : ℕ),
    (List.range t).foldl (fun op _ => op.tensor one_op)
        (diagOp s (fun k => if k = 2 ^ s - 1 then 1 else 0))
      = diagOp (s + t) (fun k => if k = 2 ^ (s + t) - 1 then 1 else 0) := by
  intro t
  induction t with
  | zero => intro s; rfl
  | succ t ih =>
    intro s
    rw [List.range_succ, List.foldl_append, ih s, List.foldl_cons, List.foldl_nil,
      one_op_diag, diag_tensor]
    have hc : s + (t + 1) = s + t + 1 := by omega
    rw [hc]
    congr 1
    funext k
    have hiff : (k / 2 ^ 1 = 2 ^ (s + t) - 1 ∧ k % 2 ^ 1 = 1) ↔ k = 2 ^ (s + t + 1) - 1 := by
      have hd := Nat.div_add_mod k 2
      have hm : k % 2 < 2 := Nat.mod_lt _ (by omega)
      have hp : (2 : ℕ) ^ (s + t + 1) = 2 * 2 ^ (s + t) := by
        rw [pow_succ]
        ring
      have hpos : 1 ≤ (2 : ℕ) ^ (s + t) := Nat.one_le_two_pow
      rw [pow_one]
      omega
    exact indMul _ _ _ hiff

/-- Combining three 0/1-valued indicator factors. -/
theorem indMul3 (A B C D : Prop) [Decidable A] [Decidable B] [Decidable C] [Decidable D]
    (h : ((A ∧ B) ∧ C) ↔ D) :
    ((if A then (1 : ℚ) else 0) * (if B then 1 else 0)) * (if C then 1 else 0)
      = if D then 1 else 0 := by
  rw [indMul A B (A ∧ B) Iff.rfl, indMul (A ∧ B) C D h]

theorem Iop_diag_pow : Iop = diagOp 1 (fun k => if k < 2 ^ 1 then 1 else 0) := by
  rw [Iop_diag]
  exact congrArg (diagOp 1) (funext fun k => by rw [pow_one])

theorem one_op_diag_pow : one_op = diagOp 1 (fun k => if k = 2 ^ 1 - 1 then 1 else 0) := by
  rw [one_op_diag]
  exact congrArg (diagOp 1) (funext fun k => by norm_num)

/-- The `prefix_op`/`norm_op` chain starting from a bare `Iop`. -/
theorem prefix_chain (t : ℕ) :
    (List.range t).foldl (fun op _ => op.tensor Iop) Iop
      = diagOp (1 + t) (fun k => if k < 2 ^ (1 + t) then 1 else 0) := by
  have h0 : (List.range t).foldl (fun op _ => op.tensor Iop) Iop
      = (List.range t).foldl (fun op _ => op.tensor Iop)
          (diagOp 1 (fun k => if k < 2 ^ 1 then 1 else 0)) := by
    rw [Iop_diag_pow]
  rw [h0]
  exact foldl_tensor_Iop t 1

/-- The `suffix_op` chain starting from a bare `one_op`. -/
theorem suffix_chain (t : ℕ) :
    (List.range t).foldl (fun op _ => op.tensor one_op) one_op
      = diagOp (1 + t) (fun k => if k = 2 ^ (1 + t) - 1 then 1 else 0) := by
  have h0 : (List.range t).foldl (fun op _ => op.tensor one_op) one_op
      = (List.range t).foldl (fun op _ => op.tensor one_op)
          (diagOp 1 (fun k => if k = 2 ^ 1 - 1 then 1 else 0)) := by
    rw [one_op_diag_pow]
  rw [h0]
  exact foldl_tensor_one_op t 1

/-- The dimension (qubit count) of the two operators generated at loop
index `i`: the prefix holds `max (n-i-1) 1` identities (one identity even
when `j = n-i-1` is zero), then the projector, then `i` suffix projectors. -/
def obsDim (n i : ℕ) : ℕ := max (n - i - 1) 1 + 1 + i

/-- The diagonal of the operator generated at loop index `i` with
projector bit `bbit`: an indicator of the basis states that are below the
prefix dimension, carry `bbit` at qubit position `i`, and are all ones on
qubits below `i`. -/
def obsDiagD (n i bbit : ℕ) : ℕ → ℚ := fun k =>
  if k / 2 ^ (i + 1) < 2 ^ (max (n - i - 1) 1) ∧ (k / 2 ^ i) % 2 = bbit ∧
      k % 2 ^ i = 2 ^ i - 1
  then 1 else 0

/-- Two diagonal operators with the same dimension and pointwise equal
diagonals are equal. -/
theorem diagOp_congr (m : ℕ) {d1 d2 : ℕ → ℚ} (h : ∀ k, d1 k = d2 k) :
    diagOp m d1 = diagOp m d2 :=
  congrArg (diagOp m) (funext h)

/-- Closed diagonal form of the operator pair generated at loop index `i`. -/
theorem obsPair_eq (n i : ℕ) :
    obsPair n i = [diagOp (obsDim n i) (obsDiagD n i 0), diagOp (obsDim n i) (obsDiagD n i 1)] := by
  simp only [obsPair]
  by_cases hj : n - i - 1 > 0
  · have hmax : max (n - i - 1) 1 = n - i - 1 := by omega
    have hpre : (List.range (n - i - 1 - 1)).foldl (fun op _ => op.tensor Iop) Iop
        = diagOp (n - i - 1) (fun k => if k < 2 ^ (n - i - 1) then 1 else 0) := by
      have h := prefix_chain (n - i - 1 - 1)
      have e : 1 + (n - i - 1 - 1) = n - i - 1 := by omega
      rw [e] at h
      exact h
    rw [if_pos hj, hpre]
    by_cases hi : i > 0
    · have hsuf : (List.range (i - 1)).foldl (fun op _ => op.tensor one_op) one_op
          = diagOp i (fun k => if k = 2 ^ i - 1 then 1 else 0) := by
        have h := suffix_chain (i - 1)
        have e : 1 + (i - 1) = i := by omega
        rw [e] at h
        exact h
      rw [if_pos hi, hsuf, zero_op_diag, one_op_diag, diag_tensor, diag_tensor,
        diag_tensor, diag_tensor]
      have hdim : n - i - 1 + 1 + i = obsDim n i := by
        unfold obsDim
        omega
      rw [hdim]
      simp only [List.cons.injEq, and_true]
      have e1 : ∀ k : ℕ, k / 2 ^ i / 2 ^ 1 = k / 2 ^ (i + 1) := by
        intro k
        rw [pow_one, Nat.div_div_eq_div_mul, ← pow_succ]
      constructor
      · apply diagOp_congr
        intro k
        simp only [obsDiagD]
        apply indMul3
        rw [e1 k, pow_one, hmax]
        tauto
      · apply diagOp_congr
        intro k
        simp only [obsDiagD]
        apply indMul3
        rw [e1 k, pow_one, hmax]
        tauto
    · have hi0 : i = 0 := by omega
      subst hi0
      rw [if_neg hi, zero_op_diag, one_op_diag, diag_tensor, diag_tensor]
      have hdim : n - 0 - 1 + 1 = obsDim n 0 := by
        unfold obsDim
        omega
      rw [hdim]
      simp only [List.cons.injEq, and_true]
      constructor
      · apply diagOp_congr
        intro k
        simp only [obsDiagD]
        apply indMul
        rw [hmax]
        simp only [pow_zero, pow_one, Nat.div_one, Nat.mod_one, zero_add]
        tauto
      · apply diagOp_congr
        intro k
        simp only [obsDiagD]
        apply indMul
        rw [hmax]
        simp only [pow_zero, pow_one, Nat.div_one, Nat.mod_one, zero_add]
        tauto
  · have hmax : max (n - i - 1) 1 = 1 := by omega
    rw [if_neg hj, Iop_diag_pow]
    by_cases hi : i > 0
    · have hsuf : (List.range (i - 1)).foldl (fun op _ => op.tensor one_op) one_op
          = diagOp i (fun k => if k = 2 ^ i - 1 then 1 else 0) := by
        have h := suffix_chain (i - 1)
        have e : 1 + (i - 1) = i := by omega
        rw [e] at h
        exact h
      rw [if_pos hi, hsuf, zero_op_diag, one_op_diag, diag_tensor, diag_tensor,
        diag_tensor, diag_tensor]
      have hdim : 1 + 1 + i = obsDim n i := by
        unfold obsDim
        omega
      rw [hdim]
      simp only [List.cons.injEq, and_true]
      have e1 : ∀ k : ℕ, k / 2 ^ i / 2 ^ 1 = k / 2 ^ (i + 1) := by
        intro k
        rw [pow_one, Nat.div_div_eq_div_mul, ← pow_succ]
      constructor
      · apply diagOp_congr
        intro k
        simp only [obsDiagD]
        apply indMul3
        rw [e1 k, pow_one, hmax]
        tauto
      · apply diagOp_congr
        intro k
        simp only [obsDiagD]
        apply indMul3
        rw [e1 k, pow_one, hmax]
        tauto
    · have hi0 : i = 0 := by omega
      subst hi0
      rw [if_neg hi, zero_op_diag, one_op_diag, diag_tensor, diag_tensor]
      have hdim : 1 + 1 = obsDim n 0 := by
        unfold obsDim
        omega
      rw [hdim]
      simp only [List.cons.injEq, and_true]
      constructor
      · apply diagOp_congr
        intro k
        simp only [obsDiagD]
        apply indMul
        rw [hmax]
        simp only [pow_zero, pow_one, Nat.div_one, Nat.mod_one, zero_add]
        tauto
      · apply diagOp_congr
        intro k
        simp only [obsDiagD]
        apply indMul
        rw [hmax]
        simp only [pow_zero, pow_one, Nat.div_one, Nat.mod_one, zero_add]
        tauto

/-- The head of `observable n` for `n ≥ 1` is the n-qubit identity. -/
theorem observable_eq (n : ℕ) (hn : 1 ≤ n) :
    observable n = diagOp n (fun k => if k < 2 ^ n then 1 else 0)
      :: (List.range n).flatMap (obsPair n) := by
  have h := prefix_chain (n - 1)
  have e : 1 + (n - 1) = n := by omega
  rw [e] at h
  simp only [observable]
  rw [h]

/-! Structure of the paired lists produced by the two builders. -/

theorem flatMap_pairs_length {α : Type} (f g : ℕ → α) :
    ∀ m, ((List.range m).flatMap (fun t => [f t, g t])).length = 2 * m := by
  intro m
  induction m with
  | zero => rfl
  | succ m ih =>
    rw [List.range_succ, List.flatMap_append, List.length_append, ih]
    simp
    omega

theorem flatMap_pairs_getD {α : Type} :
    ∀ (m : ℕ) (f g : ℕ → α) (d : α) (i : ℕ), i < m →
      (((List.range m).flatMap (fun t => [f t, g t])).getD (2 * i) d = f i ∧
       ((List.range m).flatMap (fun t => [f t, g t])).getD (2 * i + 1) d = g i) := by
  intro m
  induction m with
  | zero => intro f g d i hi; omega
  | succ m ih =>
    intro f g d i hi
    rw [List.range_succ_eq_map, List.flatMap_cons, List.flatMap_map]
    rcases i with _ | i
    · constructor <;> rfl
    · have hi2 : i < m := by omega
      have e2 : 2 * (i + 1) = 2 * i + 1 + 1 := by ring
      rw [e2]
      simp only [List.cons_append, List.nil_append, List.getD_cons_succ]
      exact ih (fun t => f (t + 1)) (fun t => g (t + 1)) d i hi2

theorem zip_flatMap_pairs {α β : Type} :
    ∀ (m : ℕ) (f g : ℕ → α) (h : ℕ → β),
      ((List.range m).flatMap (fun t => [f t, g t])).zip
          ((List.range m).flatMap (fun t => [h t, h t]))
        = (List.range m).flatMap (fun t => [(f t, h t), (g t, h t)]) := by
  intro m
  induction m with
  | zero => intro f g h; rfl
  | succ m ih =>
    intro f g h
    rw [List.range_succ_eq_map, List.flatMap_cons, List.flatMap_map, List.flatMap_cons,
      List.flatMap_map, List.flatMap_cons, List.flatMap_map]
    simp only [List.cons_append, List.nil_append, List.zip_cons_cons]
    rw [ih (fun t => f (t + 1)) (fun t => g (t + 1)) (fun t => h (t + 1))]

theorem map_flatMap_pairs {α β : Type} (F : α → β) :
    ∀ (m : ℕ) (f g : ℕ → α),
      ((List.range m).flatMap (fun t => [f t, g t])).map F
        = (List.range m).flatMap (fun t => [F (f t), F (g t)]) := by
  intro m
  induction m with
  | zero => intro f g; rfl
  | succ m ih =>
    intro f g
    rw [List.range_succ_eq_map, List.flatMap_cons, List.flatMap_map, List.flatMap_cons,
      List.flatMap_map]
    simp only [List.cons_append, List.nil_append, List.map_cons]
    rw [ih (fun t => f (t + 1)) (fun t => g (t + 1))]

/-! Binary decomposition toolkit: every index splits as
`k = 2*P*q + P*b + r` around a bit position with weight `P = 2^t`. -/

theorem pow2_pos (t : ℕ) : 0 < 2 ^ t := pow_pos (by omega) t

theorem rep_exists (P k : ℕ) (hP : 0 < P) :
    ∃ q b r, b < 2 ∧ r < P ∧ k = 2 * P * q + P * b + r := by
  refine ⟨k / (2 * P), (k / P) % 2, k % P, Nat.mod_lt _ (by omega), Nat.mod_lt _ hP, ?_⟩
  have h1 : P * (k / P) + k % P = k := Nat.div_add_mod k P
  have h2 : 2 * (k / P / 2) + (k / P) % 2 = k / P := Nat.div_add_mod (k / P) 2
  have h3 : k / P / 2 = k / (2 * P) := by
    rw [Nat.div_div_eq_div_mul, mul_comm]
  rw [h3] at h2
  calc k = P * (k / P) + k % P := h1.symm
    _ = P * (2 * (k / (2 * P)) + (k / P) % 2) + k % P := by rw [h2]
    _ = 2 * P * (k / (2 * P)) + P * ((k / P) % 2) + k % P := by ring

theorem rep_div2P (P q b r : ℕ) (hP : 0 < P) (hb : b < 2) (hr : r < P) :
    (2 * P * q + P * b + r) / (2 * P) = q := by
  have hb1 : P * b ≤ P := by
    calc P * b ≤ P * 1 := Nat.mul_le_mul_left P (by omega)
      _ = P := mul_one P
  have hs : P * b + r < 2 * P := by omega
  rw [show 2 * P * q + P * b + r = 2 * P * q + (P * b + r) by ring,
    Nat.mul_add_div (by omega), Nat.div_eq_of_lt hs, add_zero]

theorem rep_mod2P (P q b r : ℕ) (hP : 0 < P) (hb : b < 2) (hr : r < P) :
    (2 * P * q + P * b + r) % (2 * P) = P * b + r := by
  have hb1 : P * b ≤ P := by
    calc P * b ≤ P * 1 := Nat.mul_le_mul_left P (by omega)
      _ = P := mul_one P
  have hs : P * b + r < 2 * P := by omega
  rw [show 2 * P * q + P * b + r = 2 * P * q + (P * b + r) by ring,
    Nat.mul_add_mod, Nat.mod_eq_of_lt hs]

theorem rep_divP (P q b r : ℕ) (hP : 0 < P) (hb : b < 2) (hr : r < P) :
    (2 * P * q + P * b + r) / P = 2 * q + b := by
  rw [show 2 * P * q + P * b + r = P * (2 * q + b) + r by ring,
    Nat.mul_add_div hP, Nat.div_eq_of_lt hr, add_zero]

theorem rep_divP_mod2 (P q b r : ℕ) (hP : 0 < P) (hb : b < 2) (hr : r < P) :
    ((2 * P * q + P * b + r) / P) % 2 = b := by
  rw [rep_divP P q b r hP hb hr, Nat.mul_add_mod, Nat.mod_eq_of_lt hb]

theorem rep_modP (P q b r : ℕ) (hP : 0 < P) (hb : b < 2) (hr : r < P) :
    (2 * P * q + P * b + r) % P = r := by
  rw [show 2 * P * q + P * b + r = P * (2 * q + b) + r by ring,
    Nat.mul_add_mod, Nat.mod_eq_of_lt hr]

/-! The action of the basis-change circuit `cx(i,0) … cx(i,i-1); h(i)` on
amplitude vectors. -/

/-- Complements the `t` lowest bits of `k` (the combined effect of the
flips of bits `0 … t-1`). -/
def maskLow (t k : ℕ) : ℕ := k / 2 ^ t * 2 ^ t + (2 ^ t - 1 - k % 2 ^ t)

/-- The amplitude vector after the CX cascade: indices with bit `i` set
read the amplitude at the index with the `t` low bits complemented. -/
def cxPartial (i t : ℕ) (w : ℕ → ℚ) : ℕ → ℚ :=
  fun k => if (k / 2 ^ i) % 2 = 1 then w (maskLow t k) else w k

/-- The amplitude vector after a Hadamard on qubit `i` (scaled by `√2`). -/
def hState (i : ℕ) (v : ℕ → ℚ) : ℕ → ℚ :=
  fun k => if (k / 2 ^ i) % 2 = 1 then v (k - 2 ^ i) - v k else v k + v (k + 2 ^ i)

theorem maskLow_zero (k : ℕ) : maskLow 0 k = k := by
  simp [maskLow]

theorem flipBit_rep (t q b r : ℕ) (hb : b < 2) (hr : r < 2 ^ t) :
    flipBit t (2 * 2 ^ t * q + 2 ^ t * b + r)
      = 2 * 2 ^ t * q + 2 ^ t * (1 - b) + r := by
  unfold flipBit
  rw [rep_divP_mod2 (2 ^ t) q b r (pow2_pos t) hb hr]
  have hp := pow2_pos t
  rcases (by omega : b = 0 ∨ b = 1) with h | h <;> subst h
  · rw [if_neg (by omega)]
    omega
  · rw [if_pos rfl]
    omega

theorem flip_div_pow (t i k : ℕ) (hti : t < i) :
    flipBit t k / 2 ^ i = k / 2 ^ i := by
  obtain ⟨q, b, r, hb, hr, hk⟩ := rep_exists (2 ^ t) k (pow2_pos t)
  subst hk
  rw [flipBit_rep t q b r hb hr]
  have hp := pow2_pos t
  have hi : (2 : ℕ) ^ i = 2 * 2 ^ t * 2 ^ (i - t - 1) := by
    rw [show 2 * 2 ^ t = 2 ^ (t + 1) by rw [pow_succ]; ring,
      ← pow_add]
    congr 1
    omega
  have hb1 : (2 : ℕ) ^ t * b ≤ 2 ^ t := by
    have := Nat.mul_le_mul_left (2 ^ t) (show b ≤ 1 by omega)
    rwa [mul_one] at this
  have hb2 : (2 : ℕ) ^ t * (1 - b) ≤ 2 ^ t := by
    have := Nat.mul_le_mul_left (2 ^ t) (show 1 - b ≤ 1 by omega)
    rwa [mul_one] at this
  have key : ∀ s, s < 2 * 2 ^ t → (2 * 2 ^ t * q + s) / 2 ^ i = q / 2 ^ (i - t - 1) := by
    intro s hs
    calc (2 * 2 ^ t * q + s) / 2 ^ i
        = (2 * 2 ^ t * q + s) / (2 * 2 ^ t * 2 ^ (i - t - 1)) := by rw [← hi]
      _ = (2 * 2 ^ t * q + s) / (2 * 2 ^ t) / 2 ^ (i - t - 1) :=
          (Nat.div_div_eq_div_mul _ _ _).symm
      _ = q / 2 ^ (i - t - 1) := by
          rw [Nat.mul_add_div (by omega), Nat.div_eq_of_lt hs, add_zero]
  have ha : 2 * 2 ^ t * q + 2 ^ t * (1 - b) + r = 2 * 2 ^ t * q + (2 ^ t * (1 - b) + r) := by
    ring
  have hc : 2 * 2 ^ t * q + 2 ^ t * b + r = 2 * 2 ^ t * q + (2 ^ t * b + r) := by
    ring
  rw [ha, hc, key _ (by omega), key _ (by omega)]

theorem maskLow_flip (t k : ℕ) :
    maskLow t (flipBit t k) = maskLow (t + 1) k := by
  obtain ⟨q, b, r, hb, hr, hk⟩ := rep_exists (2 ^ t) k (pow2_pos t)
  subst hk
  rw [flipBit_rep t q b r hb hr]
  have hp := pow2_pos t
  have h2p : (2 : ℕ) ^ (t + 1) = 2 * 2 ^ t := by rw [pow_succ]; ring
  unfold maskLow
  rw [rep_divP (2 ^ t) q (1 - b) r (pow2_pos t) (by omega) hr,
    rep_modP (2 ^ t) q (1 - b) r (pow2_pos t) (by omega) hr, h2p,
    rep_div2P (2 ^ t) q b r (pow2_pos t) hb hr,
    rep_mod2P (2 ^ t) q b r (pow2_pos t) hb hr]
  have he : (2 * q + (1 - b)) * 2 ^ t = 2 * 2 ^ t * q + 2 ^ t * (1 - b) := by ring
  have hq : q * (2 * 2 ^ t) = 2 * 2 ^ t * q := by ring
  rw [he, hq]
  rcases (by omega : b = 0 ∨ b = 1) with h | h <;> subst h <;> omega

/-- Bit `i` is unchanged by a flip of a lower bit `t`. -/
theorem flip_keeps_high_bit (t i k : ℕ) (hti : t < i) :
    (flipBit t k / 2 ^ i) % 2 = (k / 2 ^ i) % 2 := by
  rw [flip_div_pow t i k hti]

/-- Effect of the CX cascade `cx(i,0) … cx(i,t-1)` on an amplitude
vector. -/
theorem cx_cascade (i : ℕ) (w : ℕ → ℚ) : ∀ t, t ≤ i →
    ((List.range t).map (fun j => Gate.cx i j)).foldl (fun s g => applyGate g s) (w, 0)
      = (cxPartial i t w, 0) := by
  intro t
  induction t with
  | zero =>
    intro _
    simp only [List.range_zero, List.map_nil, List.foldl_nil]
    rw [Prod.mk.injEq]
    refine ⟨?_, rfl⟩
    funext k
    rw [cxPartial, maskLow_zero, ite_self]
  | succ t ih =>
    intro hti
    rw [List.range_succ, List.map_append, List.foldl_append, ih (by omega),
      List.map_cons, List.map_nil, List.foldl_cons, List.foldl_nil, applyGate]
    rw [Prod.mk.injEq]
    refine ⟨?_, rfl⟩
    funext k
    by_cases hb : (k / 2 ^ i) % 2 = 1
    · rw [if_pos hb, cxPartial, cxPartial]
      have hfb : (flipBit t k / 2 ^ i) % 2 = 1 := by
        rw [flip_keeps_high_bit t i k (by omega)]
        exact hb
      rw [if_pos hfb, if_pos hb, maskLow_flip t k]
    · rw [if_neg hb, cxPartial, cxPartial, if_neg hb, if_neg hb]

/-- The full basis-change circuit for qubit `i`: the CX cascade followed
by the Hadamard, as generated by `observable_circuit`. -/
theorem runCircuit_circ (n i : ℕ) (w : ℕ → ℚ) :
    runCircuit ⟨n, (List.range i).map (fun j => Gate.cx i j) ++ [Gate.h i]⟩ w
      = (hState i (cxPartial i i w), 1) := by
  unfold runCircuit
  simp only
  rw [List.foldl_append, cx_cascade i w i le_rfl, List.foldl_cons, List.foldl_nil,
    applyGate]
  rfl

/-- The empty circuit leaves the state unchanged. -/
theorem runCircuit_empty (n : ℕ) (w : ℕ → ℚ) :
    runCircuit ⟨n, []⟩ w = (w, 0) := rfl

/-- Expectation value of a diagonal observable. -/
theorem expectation_diag (m : ℕ) (d : ℕ → ℚ) (qc : QuantumCircuit) (x : List ℚ) :
    expectation (diagOp m d) qc x
      = (∑ k ∈ Finset.range (2 ^ m),
          d k * (runCircuit qc (prepState x)).1 k ^ 2)
        / 2 ^ (runCircuit qc (prepState x)).2 := by
  unfold expectation
  simp only
  congr 1
  apply Finset.sum_congr rfl
  intro k hk
  rw [Finset.sum_eq_single k]
  · simp only [diagOp, if_true]
    ring
  · intro l _ hlk
    simp only [diagOp]
    rw [if_neg (fun h => hlk h.symm)]
    ring
  · intro hk2
    exact absurd hk hk2

/-! Sum re-indexing helpers for the expectation computation. -/

theorem sum_range_add_shift (f : ℕ → ℚ) :
    ∀ (B A : ℕ), (∑ k ∈ Finset.range (A + B), f k)
      = (∑ k ∈ Finset.range A, f k) + ∑ r ∈ Finset.range B, f (A + r) := by
  intro B
  induction B with
  | zero => intro A; simp
  | succ B ih =>
    intro A
    rw [show A + (B + 1) = (A + B) + 1 by ring, Finset.sum_range_succ,
      Finset.sum_range_succ, ih A, add_assoc]

theorem sum_range_pair (f : ℕ → ℚ) :
    ∀ m, (∑ t ∈ Finset.range (2 * m), f t)
      = ∑ t ∈ Finset.range m, (f (2 * t) + f (2 * t + 1)) := by
  intro m
  induction m with
  | zero => simp
  | succ m ih =>
    rw [show 2 * (m + 1) = 2 * m + 1 + 1 by ring, Finset.sum_range_succ,
      Finset.sum_range_succ, Finset.sum_range_succ, ih, add_assoc]

theorem sum_range_mul_split (f : ℕ → ℚ) (N : ℕ) :
    ∀ M, (∑ k ∈ Finset.range (M * N), f k)
      = ∑ a ∈ Finset.range M, ∑ r ∈ Finset.range N, f (a * N + r) := by
  intro M
  induction M with
  | zero => simp
  | succ M ih =>
    rw [show (M + 1) * N = M * N + N by ring, sum_range_add_shift, ih,
      Finset.sum_range_succ]

/-- Re-indexing of the double sum over (qubit index, block) by the visited
pair positions: every `s ∈ [1, 2^n)` is uniquely `2^(i+1)·a + 2^i`. -/
theorem sum_trailing :
    ∀ (n : ℕ) (g : ℕ → ℚ),
      (∑ i ∈ Finset.range n, ∑ a ∈ Finset.range (2 ^ (n - 1 - i)),
        g (2 ^ (i + 1) * a + 2 ^ i))
      = ∑ t ∈ Finset.range (2 ^ n - 1), g (t + 1) := by
  intro n
  induction n with
  | zero => intro g; simp
  | succ n ih =>
    intro g
    rw [Finset.sum_range_succ']
    have hshift : (∑ i ∈ Finset.range n, ∑ a ∈ Finset.range (2 ^ (n + 1 - 1 - (i + 1))),
          g (2 ^ (i + 1 + 1) * a + 2 ^ (i + 1)))
        = ∑ i ∈ Finset.range n, ∑ a ∈ Finset.range (2 ^ (n - 1 - i)),
            (fun s => g (2 * s)) (2 ^ (i + 1) * a + 2 ^ i) := by
      apply Finset.sum_congr rfl
      intro i _
      have e1 : n + 1 - 1 - (i + 1) = n - 1 - i := by omega
      rw [e1]
      apply Finset.sum_congr rfl
      intro a _
      have e2 : 2 ^ (i + 1 + 1) * a + 2 ^ (i + 1) = 2 * (2 ^ (i + 1) * a + 2 ^ i) := by
        rw [pow_succ, pow_succ]
        ring
      rw [e2]
    rw [hshift, ih (fun s => g (2 * s))]
    have e3 : n + 1 - 1 - 0 = n := by omega
    have e4 : (2 : ℕ) ^ (0 + 1) = 2 := by norm_num
    have e5 : (2 : ℕ) ^ 0 = 1 := by norm_num
    rw [e3, e4, e5]
    have hpos : 1 ≤ (2 : ℕ) ^ n := Nat.one_le_two_pow
    have e6 : (2 : ℕ) ^ (n + 1) - 1 = 2 * (2 ^ n - 1) + 1 := by
      have : (2 : ℕ) ^ (n + 1) = 2 * 2 ^ n := by
        rw [pow_succ]
        ring
      omega
    rw [e6, Finset.sum_range_succ, sum_range_pair]
    have e7 : ∀ t, (2 : ℕ) * t + 1 + 1 = 2 * (t + 1) := by intro t; ring
    have e8 : (∑ t ∈ Finset.range (2 ^ n - 1), (g (2 * t + 1) + g (2 * t + 1 + 1)))
        = ∑ t ∈ Finset.range (2 ^ n - 1), (g (2 * t + 1) + g (2 * (t + 1))) := by
      apply Finset.sum_congr rfl
      intro t _
      rw [e7 t]
    rw [e8, Finset.sum_add_distrib]
    have e9 := Finset.sum_range_succ (fun a => g (2 * a + 1)) (2 ^ n - 1)
    have e10 : (2 : ℕ) ^ n - 1 + 1 = 2 ^ n := by omega
    rw [e10] at e9
    rw [e9]
    ring

/-! Values of the post-circuit state at the basis indices selected by the
projector observables. -/

theorem hcx_even (i a : ℕ) (w : ℕ → ℚ) :
    hState i (cxPartial i i w) (2 * 2 ^ i * a + 2 ^ i * 0 + (2 ^ i - 1))
      = w (2 * 2 ^ i * a + 2 ^ i * 0 + (2 ^ i - 1)) + w (2 * 2 ^ i * a + 2 ^ i) := by
  have hP := pow2_pos i
  have hr : 2 ^ i - 1 < 2 ^ i := by omega
  have hc1 : ((2 * 2 ^ i * a + 2 ^ i * 0 + (2 ^ i - 1)) / 2 ^ i) % 2 = 0 :=
    rep_divP_mod2 (2 ^ i) a 0 (2 ^ i - 1) hP (by omega) hr
  have e2 : 2 * 2 ^ i * a + 2 ^ i * 0 + (2 ^ i - 1) + 2 ^ i
      = 2 * 2 ^ i * a + 2 ^ i * 1 + (2 ^ i - 1) := by ring
  have hc2 : ((2 * 2 ^ i * a + 2 ^ i * 1 + (2 ^ i - 1)) / 2 ^ i) % 2 = 1 :=
    rep_divP_mod2 (2 ^ i) a 1 (2 ^ i - 1) hP (by omega) hr
  have hmask : maskLow i (2 * 2 ^ i * a + 2 ^ i * 1 + (2 ^ i - 1)) = 2 * 2 ^ i * a + 2 ^ i := by
    unfold maskLow
    rw [rep_divP (2 ^ i) a 1 (2 ^ i - 1) hP (by omega) hr,
      rep_modP (2 ^ i) a 1 (2 ^ i - 1) hP (by omega) hr]
    have he : (2 * a + 1) * 2 ^ i = 2 * 2 ^ i * a + 2 ^ i := by ring
    omega
  simp only [hState, cxPartial]
  rw [e2, hc1, hc2, hmask]
  norm_num

theorem hcx_odd (i a : ℕ) (w : ℕ → ℚ) :
    hState i (cxPartial i i w) (2 * 2 ^ i * a + 2 ^ i * 1 + (2 ^ i - 1))
      = w (2 * 2 ^ i * a + 2 ^ i * 0 + (2 ^ i - 1)) - w (2 * 2 ^ i * a + 2 ^ i) := by
  have hP := pow2_pos i
  have hr : 2 ^ i - 1 < 2 ^ i := by omega
  have hc1 : ((2 * 2 ^ i * a + 2 ^ i * 0 + (2 ^ i - 1)) / 2 ^ i) % 2 = 0 :=
    rep_divP_mod2 (2 ^ i) a 0 (2 ^ i - 1) hP (by omega) hr
  have hc2 : ((2 * 2 ^ i * a + 2 ^ i * 1 + (2 ^ i - 1)) / 2 ^ i) % 2 = 1 :=
    rep_divP_mod2 (2 ^ i) a 1 (2 ^ i - 1) hP (by omega) hr
  have e2 : 2 * 2 ^ i * a + 2 ^ i * 1 + (2 ^ i - 1) - 2 ^ i
      = 2 * 2 ^ i * a + 2 ^ i * 0 + (2 ^ i - 1) := by omega
  have hmask : maskLow i (2 * 2 ^ i * a + 2 ^ i * 1 + (2 ^ i - 1)) = 2 * 2 ^ i * a + 2 ^ i := by
    unfold maskLow
    rw [rep_divP (2 ^ i) a 1 (2 ^ i - 1) hP (by omega) hr,
      rep_modP (2 ^ i) a 1 (2 ^ i - 1) hP (by omega) hr]
    have he : (2 * a + 1) * 2 ^ i = 2 * 2 ^ i * a + 2 ^ i := by ring
    omega
  simp only [hState, cxPartial]
  rw [e2, hc1, hc2, hmask]
  norm_num

/-- The expectation value of the projector observable at loop index `i`
with bit `b`, as a sum over the prefix blocks. -/
theorem exp_proj (n i b : ℕ) (hb : b < 2) (x : List ℚ) :
    expectation (diagOp (obsDim n i) (obsDiagD n i b))
        ⟨n, (List.range i).map (fun j => Gate.cx i j) ++ [Gate.h i]⟩ x
      = (∑ a ∈ Finset.range (2 ^ (max (n - i - 1) 1)),
          hState i (cxPartial i i (prepState x))
            (2 * 2 ^ i * a + 2 ^ i * b + (2 ^ i - 1)) ^ 2) / 2 := by
  have hP := pow2_pos i
  have hr0 : 2 ^ i - 1 < 2 ^ i := by omega
  rw [expectation_diag, runCircuit_circ]
  simp only
  have hsplit : (2 : ℕ) ^ obsDim n i = 2 ^ (max (n - i - 1) 1 + 1) * 2 ^ i := by
    rw [← pow_add]
    rfl
  rw [hsplit, sum_range_mul_split]
  have hinner : ∀ q ∈ Finset.range (2 ^ (max (n - i - 1) 1 + 1)),
      (∑ r ∈ Finset.range (2 ^ i),
        obsDiagD n i b (q * 2 ^ i + r) * hState i (cxPartial i i (prepState x)) (q * 2 ^ i + r) ^ 2)
      = (if q % 2 = b then (1 : ℚ) else 0) *
          hState i (cxPartial i i (prepState x)) (q * 2 ^ i + (2 ^ i - 1)) ^ 2 := by
    intro q hq
    rw [Finset.mem_range] at hq
    have hqdiv : q / 2 < 2 ^ (max (n - i - 1) 1) := by
      have h2 : (2 : ℕ) ^ (max (n - i - 1) 1 + 1) = 2 * 2 ^ (max (n - i - 1) 1) := by
        rw [pow_succ]
        ring
      omega
    rw [Finset.sum_eq_single (2 ^ i - 1)]
    · have hd : obsDiagD n i b (q * 2 ^ i + (2 ^ i - 1)) = if q % 2 = b then 1 else 0 := by
        unfold obsDiagD
        have ed1 : (q * 2 ^ i + (2 ^ i - 1)) / 2 ^ i = q := by
          rw [show q * 2 ^ i + (2 ^ i - 1) = 2 ^ i * q + (2 ^ i - 1) by ring,
            Nat.mul_add_div hP, Nat.div_eq_of_lt hr0, add_zero]
        have ed2 : (q * 2 ^ i + (2 ^ i - 1)) / 2 ^ (i + 1) = q / 2 := by
          rw [pow_succ, ← Nat.div_div_eq_div_mul, ed1]
        have ed3 : (q * 2 ^ i + (2 ^ i - 1)) % 2 ^ i = 2 ^ i - 1 := by
          rw [show q * 2 ^ i + (2 ^ i - 1) = 2 ^ i * q + (2 ^ i - 1) by ring,
            Nat.mul_add_mod, Nat.mod_eq_of_lt hr0]
        rw [ed1, ed2, ed3]
        by_cases hqb : q % 2 = b
        · rw [if_pos hqb, if_pos ⟨hqdiv, hqb, rfl⟩]
        · rw [if_neg hqb, if_neg]
          intro hcontra
          exact hqb hcontra.2.1
      rw [hd]
    · intro r hr hrne
      have hd0 : obsDiagD n i b (q * 2 ^ i + r) = 0 := by
        rw [Finset.mem_range] at hr
        unfold obsDiagD
        rw [if_neg]
        intro hcontra
        apply hrne
        have ed3 : (q * 2 ^ i + r) % 2 ^ i = r := by
          rw [show q * 2 ^ i + r = 2 ^ i * q + r by ring, Nat.mul_add_mod,
            Nat.mod_eq_of_lt hr]
        rw [ed3] at hcontra
        exact hcontra.2.2
      rw [hd0, zero_mul]
    · intro hmem
      exact absurd (Finset.mem_range.mpr hr0) hmem
  rw [Finset.sum_congr rfl hinner]
  have h2p : (2 : ℕ) ^ (max (n - i - 1) 1 + 1) = 2 * 2 ^ (max (n - i - 1) 1) := by
    rw [pow_succ]
    ring
  rw [h2p, sum_range_pair]
  congr 1
  apply Finset.sum_congr rfl
  intro a _
  rcases (by omega : b = 0 ∨ b = 1) with hb0 | hb1
  · subst hb0
    have hm0 : (2 * a) % 2 = 0 := by omega
    have hm1 : (2 * a + 1) % 2 = 1 := by omega
    rw [hm0, hm1]
    have ea : 2 * a * 2 ^ i + (2 ^ i - 1) = 2 * 2 ^ i * a + 2 ^ i * 0 + (2 ^ i - 1) := by
      ring
    rw [ea]
    norm_num
  · subst hb1
    have hm0 : (2 * a) % 2 = 0 := by omega
    have hm1 : (2 * a + 1) % 2 = 1 := by omega
    rw [hm0, hm1]
    have ea : (2 * a + 1) * 2 ^ i + (2 ^ i - 1) = 2 * 2 ^ i * a + 2 ^ i * 1 + (2 ^ i - 1) := by
      ring
    rw [ea]
    norm_num

/-- Difference of the zero- and one-projector expectation values at loop
index `i`: twice the sum of the adjacent-amplitude products inside each
block of width `2^(i+1)`. -/
theorem exp_pair (n i : ℕ) (hi : i < n) (x : List ℚ) (hlen : x.length = 2 ^ n) :
    expectation (diagOp (obsDim n i) (obsDiagD n i 0))
        ⟨n, (List.range i).map (fun j => Gate.cx i j) ++ [Gate.h i]⟩ x
      - expectation (diagOp (obsDim n i) (obsDiagD n i 1))
        ⟨n, (List.range i).map (fun j => Gate.cx i j) ++ [Gate.h i]⟩ x
      = 2 * ∑ a ∈ Finset.range (2 ^ (n - 1 - i)),
          prepState x (2 ^ (i + 1) * a + 2 ^ i - 1) * prepState x (2 ^ (i + 1) * a + 2 ^ i) := by
  have hP := pow2_pos i
  rw [exp_proj n i 0 (by omega) x, exp_proj n i 1 (by omega) x, div_sub_div_same,
    ← Finset.sum_sub_distrib]
  have epow : 2 * 2 ^ i = 2 ^ (i + 1) := by
    rw [pow_succ]
    ring
  have eA : ∀ a : ℕ, 2 * 2 ^ i * a + 2 ^ i * 0 + (2 ^ i - 1) = 2 ^ (i + 1) * a + 2 ^ i - 1 := by
    intro a
    rw [← epow]
    omega
  have eB : ∀ a : ℕ, 2 * 2 ^ i * a + 2 ^ i = 2 ^ (i + 1) * a + 2 ^ i := by
    intro a
    rw [← epow]
  have hterm : ∀ a ∈ Finset.range (2 ^ (max (n - i - 1) 1)),
      hState i (cxPartial i i (prepState x)) (2 * 2 ^ i * a + 2 ^ i * 0 + (2 ^ i - 1)) ^ 2
        - hState i (cxPartial i i (prepState x)) (2 * 2 ^ i * a + 2 ^ i * 1 + (2 ^ i - 1)) ^ 2
      = 4 * (prepState x (2 ^ (i + 1) * a + 2 ^ i - 1) * prepState x (2 ^ (i + 1) * a + 2 ^ i)) := by
    intro a _
    rw [hcx_even, hcx_odd, eA a, eB a]
    ring
  rw [Finset.sum_congr rfl hterm, ← Finset.mul_sum]
  by_cases hj : n - i - 1 > 0
  · have hmax : max (n - i - 1) 1 = n - i - 1 := by omega
    have hsame : n - i - 1 = n - 1 - i := by omega
    rw [hmax, hsame]
    ring
  · have hieq : i = n - 1 := by omega
    have hmax : max (n - i - 1) 1 = 1 := by omega
    have hzero : n - 1 - i = 0 := by omega
    rw [hmax, hzero]
    have h1 : (2 : ℕ) ^ 1 = 2 := by norm_num
    have h0 : (2 : ℕ) ^ 0 = 1 := by norm_num
    rw [h1, h0, Finset.sum_range_succ, Finset.sum_range_succ, Finset.sum_range_zero]
    have hbig : prepState x (2 ^ (i + 1) * 1 + 2 ^ i) = 0 := by
      unfold prepState
      apply List.getD_eq_default
      rw [hlen]
      have hpow : (2 : ℕ) ^ n ≤ 2 ^ (i + 1) := by
        apply Nat.pow_le_pow_right (by omega)
        omega
      omega
    rw [hbig]
    ring

/-! Closed form of `evaluate_classically`. -/

theorem dotL_cons (a b : ℚ) (u v : List ℚ) :
    dotL (a :: u) (b :: v) = a * b + dotL u v := by
  simp [dotL]

theorem dotL_map_range : ∀ (u : List ℚ) (f : ℕ → ℚ),
    dotL u ((List.range u.length).map f) = ∑ r ∈ Finset.range u.length, u.getD r 0 * f r := by
  intro u
  induction u with
  | nil => intro f; simp [dotL]
  | cons a u ih =>
    intro f
    rw [List.length_cons, List.range_succ_eq_map, List.map_cons, List.map_map,
      dotL_cons, ih (f ∘ Nat.succ), Finset.sum_range_succ']
    simp only [List.getD_cons_succ, List.getD_cons_zero, Function.comp_apply]
    ring

theorem tridiag_entry (main_diag off_diag : ℚ) (m r c : ℕ) (hr : r < m) (hc : c < m) :
    tridiagMat main_diag off_diag m r c
      = (if r = c then main_diag else 0) + (if r = c + 1 then off_diag else 0)
        + (if c = r + 1 then off_diag else 0) := by
  unfold tridiagMat
  rw [if_pos ⟨hr, hc⟩]
  by_cases h1 : r = c
  · rw [if_pos h1, if_pos h1, if_neg (by omega), if_neg (by omega)]
    ring
  · rw [if_neg h1, if_neg h1]
    by_cases h2 : r = c + 1
    · rw [if_pos (Or.inl h2), if_pos h2, if_neg (by omega)]
      ring
    · by_cases h3 : c = r + 1
      · rw [if_pos (Or.inr h3), if_neg h2, if_pos h3]
        ring
      · rw [if_neg (by tauto), if_neg h2, if_neg h3]
        ring

theorem inner_row (main_diag off_diag : ℚ) (x : List ℚ) (m r : ℕ)
    (hm : x.length = m) (hr : r < m) :
    (∑ c ∈ Finset.range m, tridiagMat main_diag off_diag m r c * x.getD c 0)
      = main_diag * x.getD r 0
        + (if r = 0 then 0 else off_diag * x.getD (r - 1) 0)
        + off_diag * x.getD (r + 1) 0 := by
  have hw0 : ∀ c, m ≤ c → x.getD c 0 = 0 := by
    intro c hc
    exact List.getD_eq_default _ _ (by omega)
  have hsplit : ∀ c ∈ Finset.range m,
      tridiagMat main_diag off_diag m r c * x.getD c 0
        = (if r = c then main_diag else 0) * x.getD c 0
          + ((if r = c + 1 then off_diag else 0) * x.getD c 0
            + (if c = r + 1 then off_diag else 0) * x.getD c 0) := by
    intro c hc
    rw [Finset.mem_range] at hc
    rw [tridiag_entry main_diag off_diag m r c hr hc]
    ring
  rw [Finset.sum_congr rfl hsplit, Finset.sum_add_distrib]
  have hA : (∑ c ∈ Finset.range m, (if r = c then main_diag else 0) * x.getD c 0)
      = main_diag * x.getD r 0 := by
    rw [Finset.sum_eq_single r]
    · rw [if_pos rfl]
    · intro c _ hcr
      rw [if_neg (fun h => hcr h.symm), zero_mul]
    · intro hmem
      exact absurd (Finset.mem_range.mpr hr) hmem
  have hB : (∑ c ∈ Finset.range m, (if r = c + 1 then off_diag else 0) * x.getD c 0)
      = if r = 0 then 0 else off_diag * x.getD (r - 1) 0 := by
    by_cases h0 : r = 0
    · subst h0
      rw [if_pos rfl]
      apply Finset.sum_eq_zero
      intro c _
      rw [if_neg (by omega), zero_mul]
    · rw [if_neg h0, Finset.sum_eq_single (r - 1)]
      · rw [if_pos (by omega)]
      · intro c _ hc
        rw [if_neg (by omega), zero_mul]
      · intro hmem
        exfalso
        exact hmem (Finset.mem_range.mpr (by omega))
  have hC : (∑ c ∈ Finset.range m, (if c = r + 1 then off_diag else 0) * x.getD c 0)
      = off_diag * x.getD (r + 1) 0 := by
    by_cases h1 : r + 1 < m
    · rw [Finset.sum_eq_single (r + 1)]
      · rw [if_pos rfl]
      · intro c _ hc
        rw [if_neg hc, zero_mul]
      · intro hmem
        exact absurd (Finset.mem_range.mpr h1) hmem
    · rw [hw0 _ (by omega), mul_zero]
      apply Finset.sum_eq_zero
      intro c hc
      rw [Finset.mem_range] at hc
      rw [if_neg (by omega), zero_mul]
  rw [Finset.sum_add_distrib, hA, hB, hC]
  ring

theorem eval_closed (main_diag off_diag : ℚ) (x : List ℚ) :
    evaluate_classically main_diag off_diag x
      = main_diag * (∑ r ∈ Finset.range x.length, x.getD r 0 ^ 2)
        + off_diag * (2 * ∑ t ∈ Finset.range (x.length - 1),
            x.getD t 0 * x.getD (t + 1) 0) := by
  unfold evaluate_classically matvec
  simp only
  rw [dotL_map_range x (fun r => ∑ c ∈ Finset.range x.length,
    tridiagMat main_diag off_diag x.length r c * x.getD c 0)]
  rcases Nat.eq_zero_or_pos x.length with hm | hm
  · rw [hm]
    simp
  · have hcong : ∀ r ∈ Finset.range x.length,
        x.getD r 0 * (∑ c ∈ Finset.range x.length,
          tridiagMat main_diag off_diag x.length r c * x.getD c 0)
        = main_diag * x.getD r 0 ^ 2
          + (x.getD r 0 * (if r = 0 then 0 else off_diag * x.getD (r - 1) 0)
            + off_diag * (x.getD r 0 * x.getD (r + 1) 0)) := by
      intro r hrm
      rw [Finset.mem_range] at hrm
      rw [inner_row main_diag off_diag x x.length r rfl hrm]
      ring
    rw [Finset.sum_congr rfl hcong, Finset.sum_add_distrib, Finset.sum_add_distrib]
    have hmain : (∑ r ∈ Finset.range x.length, main_diag * x.getD r 0 ^ 2)
        = main_diag * ∑ r ∈ Finset.range x.length, x.getD r 0 ^ 2 := by
      rw [Finset.mul_sum]
    have hmid : (∑ r ∈ Finset.range x.length,
          x.getD r 0 * (if r = 0 then 0 else off_diag * x.getD (r - 1) 0))
        = off_diag * ∑ t ∈ Finset.range (x.length - 1), x.getD t 0 * x.getD (t + 1) 0 := by
      have e := Finset.sum_range_succ'
        (fun r => x.getD r 0 * (if r = 0 then 0 else off_diag * x.getD (r - 1) 0))
        (x.length - 1)
      have e1 : x.length - 1 + 1 = x.length := by omega
      rw [e1] at e
      rw [e]
      norm_num
      rw [Finset.mul_sum]
      apply Finset.sum_congr rfl
      intro t _
      ring
    have hlast : (∑ r ∈ Finset.range x.length, off_diag * (x.getD r 0 * x.getD (r + 1) 0))
        = off_diag * ∑ t ∈ Finset.range (x.length - 1), x.getD t 0 * x.getD (t + 1) 0 := by
      have e := Finset.sum_range_succ
        (fun r => off_diag * (x.getD r 0 * x.getD (r + 1) 0)) (x.length - 1)
      have e1 : x.length - 1 + 1 = x.length := by omega
      rw [e1] at e
      rw [e, List.getD_eq_default _ _ (le_refl x.length), mul_zero, mul_zero, add_zero,
        Finset.mul_sum]
    rw [hmain, hmid, hlast]
    ring

/-! Assembly of the full measurement pipeline. -/

/-- The basis-change circuit generated at loop index `i`. -/
def obsCircAt (num_qubits i : ℕ) : QuantumCircuit :=
  ⟨num_qubits, (List.range i).map (fun j => Gate.cx i j) ++ [Gate.h i]⟩

theorem observable_circuit_eq (n : ℕ) :
    observable_circuit n
      = ⟨n, []⟩ :: (List.range n).flatMap (fun i => [obsCircAt n i, obsCircAt n i]) := rfl

/-- Expectation value of the norm observable in the prepared state. -/
theorem exp_norm (n : ℕ) (x : List ℚ) :
    expectation (diagOp n (fun k => if k < 2 ^ n then 1 else 0)) ⟨n, []⟩ x
      = ∑ k ∈ Finset.range (2 ^ n), prepState x k ^ 2 := by
  rw [expectation_diag, runCircuit_empty]
  simp only
  rw [pow_zero, div_one]
  apply Finset.sum_congr rfl
  intro k hk
  rw [Finset.mem_range] at hk
  rw [if_pos hk, one_mul]

/-- The list of exact expectation values produced by the pipeline, in
closed form. -/
theorem pipelineResults_eq (n : ℕ) (hn : 1 ≤ n) (x : List ℚ) :
    pipelineResults n x
      = (∑ k ∈ Finset.range (2 ^ n), prepState x k ^ 2)
        :: (List.range n).flatMap (fun i =>
            [expectation (diagOp (obsDim n i) (obsDiagD n i 0)) (obsCircAt n i) x,
             expectation (diagOp (obsDim n i) (obsDiagD n i 1)) (obsCircAt n i) x]) := by
  unfold pipelineResults
  rw [observable_eq n hn, observable_circuit_eq n]
  have hobs : (List.range n).flatMap (obsPair n)
      = (List.range n).flatMap (fun i => [diagOp (obsDim n i) (obsDiagD n i 0),
          diagOp (obsDim n i) (obsDiagD n i 1)]) := by
    congr 1
    funext i
    exact obsPair_eq n i
  rw [hobs, List.zip_cons_cons, List.map_cons,
    zip_flatMap_pairs n (fun i => diagOp (obsDim n i) (obsDiagD n i 0))
      (fun i => diagOp (obsDim n i) (obsDiagD n i 1)) (fun i => obsCircAt n i),
    map_flatMap_pairs]
  congr 1
  exact exp_norm n x

theorem exp_pair_circ (n i : ℕ) (hi : i < n) (x : List ℚ) (hlen : x.length = 2 ^ n) :
    expectation (diagOp (obsDim n i) (obsDiagD n i 0)) (obsCircAt n i) x
      - expectation (diagOp (obsDim n i) (obsDiagD n i 1)) (obsCircAt n i) x
      = 2 * ∑ a ∈ Finset.range (2 ^ (n - 1 - i)),
          prepState x (2 ^ (i + 1) * a + 2 ^ i - 1) * prepState x (2 ^ (i + 1) * a + 2 ^ i) :=
  exp_pair n i hi x hlen

/-- Sums of embedded reals embed the sum. -/
def CQ.ofRatHom : ℚ →+ CQ where
  toFun := CQ.ofRat
  map_zero' := rfl
  map_add' a b := by ext <;> simp [CQ.ofRat]

theorem CQ.ofRat_sum {ι : Type} (s : Finset ι) (f : ι → ℚ) :
    (∑ i ∈ s, CQ.ofRat (f i)) = CQ.ofRat (∑ i ∈ s, f i) :=
  (map_sum CQ.ofRatHom f s).symm

theorem CQ.divQ_one_sq (z : CQ) : CQ.divQ z ((1 : ℚ) ^ 2) = z := by
  ext <;> simp [CQ.divQ]

/-- Claim C2 (round trip): feeding the exact noiseless expectation values
of the generated circuit/observable pairs to `post_processing` with
scaling 1 reproduces `evaluate_classically`. -/
theorem C2_roundtrip (main_diag off_diag : ℚ) (n : ℕ) (hn : 1 ≤ n) (x : List ℚ)
    (hlen : x.length = 2 ^ n)
    (hnorm : (∑ k ∈ Finset.range (2 ^ n), x.getD k 0 ^ 2) = 1) :
    post_processing main_diag off_diag
        (PyValue.pyList ((pipelineResults n x).map CQ.ofRat)) n 1
      = PyRes.ok (evaluate_classically main_diag off_diag x) := by
  rw [pipelineResults_eq n hn x, List.map_cons, map_flatMap_pairs]
  rw [post_processing_odd main_diag off_diag _ n 1 n
    (by rw [List.length_cons, flatMap_pairs_length])]
  rw [List.getD_cons_zero]
  have hget : ∀ k ∈ Finset.range n,
      CQ.divQ ((CQ.ofRat (∑ k ∈ Finset.range (2 ^ n), prepState x k ^ 2)
          :: (List.range n).flatMap (fun i =>
            [CQ.ofRat (expectation (diagOp (obsDim n i) (obsDiagD n i 0)) (obsCircAt n i) x),
             CQ.ofRat (expectation (diagOp (obsDim n i) (obsDiagD n i 1)) (obsCircAt n i) x)])).getD
            (2 * k + 1) 0
        - (CQ.ofRat (∑ k ∈ Finset.range (2 ^ n), prepState x k ^ 2)
          :: (List.range n).flatMap (fun i =>
            [CQ.ofRat (expectation (diagOp (obsDim n i) (obsDiagD n i 0)) (obsCircAt n i) x),
             CQ.ofRat (expectation (diagOp (obsDim n i) (obsDiagD n i 1)) (obsCircAt n i) x)])).getD
            (2 * k + 2) 0) ((1 : ℚ) ^ 2)
      = CQ.ofRat (2 * ∑ a ∈ Finset.range (2 ^ (n - 1 - k)),
          prepState x (2 ^ (k + 1) * a + 2 ^ k - 1) * prepState x (2 ^ (k + 1) * a + 2 ^ k)) := by
    intro k hk
    rw [Finset.mem_range] at hk
    have h12 := flatMap_pairs_getD n
      (fun i => CQ.ofRat (expectation (diagOp (obsDim n i) (obsDiagD n i 0)) (obsCircAt n i) x))
      (fun i => CQ.ofRat (expectation (diagOp (obsDim n i) (obsDiagD n i 1)) (obsCircAt n i) x))
      0 k hk
    rw [show 2 * k + 2 = (2 * k + 1) + 1 from rfl, List.getD_cons_succ, List.getD_cons_succ,
      h12.1, h12.2, CQ.divQ_one_sq, CQ.ofRat_sub, exp_pair_circ n k hk x hlen]
  rw [Finset.sum_congr rfl hget, CQ.ofRat_sum]
  have hre : (CQ.smulQ main_diag (CQ.divQ (CQ.ofRat
        (∑ k ∈ Finset.range (2 ^ n), prepState x k ^ 2)) ((1 : ℚ) ^ 2))
      + CQ.smulQ off_diag (CQ.ofRat (∑ k ∈ Finset.range n,
          2 * ∑ a ∈ Finset.range (2 ^ (n - 1 - k)),
            prepState x (2 ^ (k + 1) * a + 2 ^ k - 1)
              * prepState x (2 ^ (k + 1) * a + 2 ^ k)))).re
      = main_diag * (∑ k ∈ Finset.range (2 ^ n), prepState x k ^ 2)
        + off_diag * (∑ k ∈ Finset.range n, 2 * ∑ a ∈ Finset.range (2 ^ (n - 1 - k)),
            prepState x (2 ^ (k + 1) * a + 2 ^ k - 1)
              * prepState x (2 ^ (k + 1) * a + 2 ^ k)) := by
    simp only [CQ.add_re, CQ.smulQ_re, CQ.divQ_re, CQ.ofRat_re]
    norm_num
  rw [hre]
  have hdiff : (∑ k ∈ Finset.range n, 2 * ∑ a ∈ Finset.range (2 ^ (n - 1 - k)),
        prepState x (2 ^ (k + 1) * a + 2 ^ k - 1) * prepState x (2 ^ (k + 1) * a + 2 ^ k))
      = 2 * ∑ t ∈ Finset.range (2 ^ n - 1), prepState x t * prepState x (t + 1) := by
    rw [← Finset.mul_sum,
      sum_trailing n (fun s => prepState x (s - 1) * prepState x s)]
    simp only [Nat.add_sub_cancel]
  rw [hdiff, eval_closed main_diag off_diag x, hlen]
  rfl

/-! Remaining supporting lemmas for the claim theorems. -/

theorem getD_map_ofRat : ∀ (sol : List ℚ) (i : ℕ),
    (sol.map CQ.ofRat).getD i 0 = CQ.ofRat (sol.getD i 0) := by
  intro sol
  induction sol with
  | nil => intro i; rfl
  | cons a l ih =>
    intro i
    rcases i with _ | i
    · rfl
    · rw [List.map_cons, List.getD_cons_succ, List.getD_cons_succ, ih i]

theorem CQ.divQ_ofRat (a s : ℚ) : CQ.divQ (CQ.ofRat a) s = CQ.ofRat (a / s) := by
  ext <;> simp [CQ.divQ, CQ.ofRat]

theorem CQ.smulQ_ofRat (c a : ℚ) : CQ.smulQ c (CQ.ofRat a) = CQ.ofRat (c * a) := by
  ext <;> simp [CQ.smulQ, CQ.ofRat]

theorem CQ.ofRat_add (a b : ℚ) : CQ.ofRat a + CQ.ofRat b = CQ.ofRat (a + b) := by
  ext <;> simp [CQ.ofRat]

theorem pyIndex_cases (sol : List CQ) (i : ℕ) :
    (∃ v, pyIndex sol i = PyRes.ok v) ∨ pyIndex sol i = PyRes.error PyError.indexError := by
  unfold pyIndex
  cases sol.get? i with
  | none => right; rfl
  | some v => left; exact ⟨v, rfl⟩

theorem foldl_offValStep_cases (sol : List CQ) (s : ℚ) :
    ∀ (ks : List ℕ) (acc : PyRes CQ),
      ((∃ v, acc = PyRes.ok v) ∨ acc = PyRes.error PyError.indexError) →
      ((∃ v, ks.foldl (offValStep sol s) acc = PyRes.ok v)
        ∨ ks.foldl (offValStep sol s) acc = PyRes.error PyError.indexError) := by
  intro ks
  induction ks with
  | nil => intro acc h; exact h
  | cons i ks ih =>
    intro acc h
    rw [List.foldl_cons]
    apply ih
    rcases h with ⟨v, hv⟩ | he
    · subst hv
      rw [offValStep]
      rcases pyIndex_cases sol i with ⟨w1, hw1⟩ | hw1 <;> rw [hw1]
      · rcases pyIndex_cases sol (i + 1) with ⟨w2, hw2⟩ | hw2 <;> rw [hw2]
        · exact Or.inl ⟨_, rfl⟩
        · exact Or.inr rfl
      · exact Or.inr rfl
    · subst he
      exact Or.inr rfl

/-- On a Python `list` input, `post_processing` either returns a value or
raises `IndexError`; it never raises `ValueError`. -/
theorem post_pyList_cases (main_diag off_diag : ℚ) (sol : List CQ) (num_qubits : ℕ) (s : ℚ) :
    (∃ v, post_processing main_diag off_diag (PyValue.pyList sol) num_qubits s = PyRes.ok v)
      ∨ post_processing main_diag off_diag (PyValue.pyList sol) num_qubits s
          = PyRes.error PyError.indexError := by
  rw [post_processing]
  have hov := foldl_offValStep_cases sol s (offRange sol.length) (PyRes.ok 0)
    (Or.inl ⟨0, rfl⟩)
  rcases hov with ⟨v, hv⟩ | he
  · have hv2 : offVal sol s = PyRes.ok v := hv
    rw [hv2]
    rcases pyIndex_cases sol 0 with ⟨w, hw⟩ | hw <;> rw [hw]
    · exact Or.inl ⟨_, rfl⟩
    · exact Or.inr rfl
  · have he2 : offVal sol s = PyRes.error PyError.indexError := he
    rw [he2]
    exact Or.inr rfl

/-! Claim theorems. -/

/-- Claim C1 (refuted; code bug): the claim states that every entry of
`observable n` acts on `n` qubits, with an empty identity prefix when
`j = 0`.  In the code `prefix_op` is one `Identity` even when `j = 0`, so
for every `n ≥ 1` the final operator pair (indices `2n-1`, `2n`) acts on
`n + 1` qubits; at `n = 1` the three operators act on 1, 2 and 2 qubits
while every generated circuit has 1 qubit. -/
theorem C1_observable_dimensions :
    (∀ n, 1 ≤ n → ((observable n).getD (2 * n - 1) Iop).numQubits = n + 1)
      ∧ (observable 1).map Op.numQubits = [1, 2, 2]
      ∧ (observable_circuit 1).map QuantumCircuit.num_qubits = [1, 1, 1] := by
  refine ⟨?_, ?_, ?_⟩
  · intro n hn
    rw [observable_eq n hn]
    have hobs : (List.range n).flatMap (obsPair n)
        = (List.range n).flatMap (fun i => [diagOp (obsDim n i) (obsDiagD n i 0),
            diagOp (obsDim n i) (obsDiagD n i 1)]) := by
      congr 1
      funext i
      exact obsPair_eq n i
    rw [hobs, show 2 * n - 1 = 2 * (n - 1) + 1 from by omega, List.getD_cons_succ,
      (flatMap_pairs_getD n (fun i => diagOp (obsDim n i) (obsDiagD n i 0))
        (fun i => diagOp (obsDim n i) (obsDiagD n i 1)) Iop (n - 1) (by omega)).1]
    show obsDim n (n - 1) = n + 1
    unfold obsDim
    omega
  · rfl
  · rfl

/-- Witness for C1 at the failing input `n = 1`: the operator at index 1
acts on 2 qubits. -/
theorem C1_observable_dimensions_witness :
    ((observable 1).getD (2 * 1 - 1) Iop).numQubits = 1 + 1 :=
  C1_observable_dimensions.1 1 (by norm_num)

/-- Claim C2 (confirmed): for every `n ≥ 1` and unit-norm vector `x` of
length `2^n`, composing each generated circuit with the exact preparation
of `x`, taking the exact noiseless expectation value of the paired
observable, and feeding the ordered list to `post_processing` with
scaling 1 returns exactly `evaluate_classically x`. -/
theorem C2_roundtrip_matches_classical (main_diag off_diag : ℚ) (n : ℕ) (hn : 1 ≤ n)
    (x : List ℚ) (hlen : x.length = 2 ^ n)
    (hnorm : (∑ k ∈ Finset.range (2 ^ n), x.getD k 0 ^ 2) = 1) :
    post_processing main_diag off_diag
        (PyValue.pyList ((pipelineResults n x).map CQ.ofRat)) n 1
      = PyRes.ok (evaluate_classically main_diag off_diag x) :=
  C2_roundtrip main_diag off_diag n hn x hlen hnorm

/-- Witness for C2: at `n = 1`, `x = [1, 0]`, `main_diag = 2`,
`off_diag = 3`, the pipeline result equals the classical value, which
evaluates to 2. -/
theorem C2_roundtrip_matches_classical_witness :
    post_processing 2 3 (PyValue.pyList ((pipelineResults 1 [1, 0]).map CQ.ofRat)) 1 1
        = PyRes.ok (evaluate_classically 2 3 [1, 0])
      ∧ evaluate_classically 2 3 [1, 0] = 2 :=
  ⟨C2_roundtrip_matches_classical 2 3 1 (by norm_num) [1, 0] (by decide)
    (by norm_num [Finset.sum_range_succ]),
   by rw [eval_closed]; norm_num [Finset.sum_range_succ]⟩

/-- Claim C3 (confirmed): on a list of exactly `2n+1` real values and
positive scaling `s`, `post_processing` returns
`main_diag·(solution[0]/s²) + off_diag·Σ_{k<n} (solution[2k+1] − solution[2k+2])/s²`
(the real part of a real value being itself). -/
theorem C3_post_processing_formula (main_diag off_diag : ℚ) (n : ℕ) (hn : 1 ≤ n)
    (sol : List ℚ) (hlen : sol.length = 2 * n + 1) (s : ℚ) (hs : 0 < s) :
    post_processing main_diag off_diag (PyValue.pyList (sol.map CQ.ofRat)) n s
      = PyRes.ok (main_diag * (sol.getD 0 0 / s ^ 2)
          + off_diag * ∑ k ∈ Finset.range n,
              (sol.getD (2 * k + 1) 0 - sol.getD (2 * k + 2) 0) / s ^ 2) := by
  have hlen2 : (sol.map CQ.ofRat).length = 2 * n + 1 := by
    rw [List.length_map, hlen]
  rw [post_processing_odd main_diag off_diag _ n s n hlen2]
  have hsum : ∀ k ∈ Finset.range n,
      CQ.divQ ((sol.map CQ.ofRat).getD (2 * k + 1) 0 - (sol.map CQ.ofRat).getD (2 * k + 2) 0)
          (s ^ 2)
        = CQ.ofRat ((sol.getD (2 * k + 1) 0 - sol.getD (2 * k + 2) 0) / s ^ 2) := by
    intro k _
    rw [getD_map_ofRat, getD_map_ofRat, CQ.ofRat_sub, CQ.divQ_ofRat]
  rw [Finset.sum_congr rfl hsum, CQ.ofRat_sum, getD_map_ofRat, CQ.divQ_ofRat,
    CQ.smulQ_ofRat, CQ.smulQ_ofRat, CQ.ofRat_add]
  rfl

/-- Witness for C3: a concrete evaluation at `n = 1`,
`solution = [1, 2, 5]`, `scaling = 2`. -/
theorem C3_post_processing_formula_witness :
    post_processing 2 3 (PyValue.pyList (([1, 2, 5] : List ℚ).map CQ.ofRat)) 1 2
      = PyRes.ok (-7 / 4) := by
  rw [C3_post_processing_formula 2 3 1 (by norm_num) [1, 2, 5] (by decide) 2 (by norm_num)]
  simp only [PyRes.ok.injEq, Finset.sum_range_one]
  norm_num

/-- Claim C4 (confirmed): `evaluate_classically` computes the bilinear
form `xᵀ·A·x` for the tridiagonal matrix with `main_diag` on the main
diagonal and `off_diag` on the adjacent diagonals (no conjugation); in
particular with `main_diag = 2`, `off_diag = 1` it maps `[1, 1]` to 6. -/
theorem C4_evaluate_classically_bilinear (main_diag off_diag : ℚ) (x : List ℚ)
    (hx : 2 ≤ x.length) :
    evaluate_classically main_diag off_diag x
        = (∑ r ∈ Finset.range x.length, ∑ c ∈ Finset.range x.length,
            x.getD r 0 * tridiagMat main_diag off_diag x.length r c * x.getD c 0)
      ∧ evaluate_classically 2 1 [1, 1] = 6 := by
  constructor
  · unfold evaluate_classically matvec
    simp only
    rw [dotL_map_range]
    apply Finset.sum_congr rfl
    intro r _
    rw [Finset.mul_sum]
    apply Finset.sum_congr rfl
    intro c _
    ring
  · rw [eval_closed]
    norm_num [Finset.sum_range_succ]

/-- Witness for C4 at `x = [1, 1]`, `main_diag = 2`, `off_diag = 1`. -/
theorem C4_evaluate_classically_bilinear_witness :
    evaluate_classically 2 1 [1, 1] = 6 :=
  (C4_evaluate_classically_bilinear 2 1 [1, 1] (by decide)).2

/-- Claim C5 (confirmed): `observable_circuit n` returns `2n+1` circuits
on `n` qubits; index 0 is the empty circuit and, for each `i < n`, the
circuit `cx(i,0) … cx(i,i-1); h(i)` sits at both indices `2i+1` and
`2i+2` (the two entries being identical). -/
theorem C5_observable_circuit_structure (n : ℕ) (hn : 1 ≤ n) :
    (observable_circuit n).length = 2 * n + 1
      ∧ (observable_circuit n).getD 0 ⟨0, []⟩ = ⟨n, []⟩
      ∧ ∀ i, i < n →
          (observable_circuit n).getD (2 * i + 1) ⟨0, []⟩
              = ⟨n, (List.range i).map (fun j => Gate.cx i j) ++ [Gate.h i]⟩
            ∧ (observable_circuit n).getD (2 * i + 2) ⟨0, []⟩
              = ⟨n, (List.range i).map (fun j => Gate.cx i j) ++ [Gate.h i]⟩ := by
  rw [observable_circuit_eq]
  refine ⟨?_, rfl, ?_⟩
  · rw [List.length_cons, flatMap_pairs_length]
  · intro i hi
    have h12 := flatMap_pairs_getD n (fun i => obsCircAt n i) (fun i => obsCircAt n i)
      ⟨0, []⟩ i hi
    constructor
    · rw [List.getD_cons_succ, h12.1]
      rfl
    · rw [show 2 * i + 2 = (2 * i + 1) + 1 from rfl, List.getD_cons_succ, h12.2]
      rfl


/-- Witness for C5 at `n = 2`, `i = 1`. -/
theorem C5_observable_circuit_structure_witness :
    (observable_circuit 2).length = 2 * 2 + 1
      ∧ (observable_circuit 2).getD 3 ⟨0, []⟩
          = ⟨2, [Gate.cx 1 0, Gate.h 1]⟩ := by
  refine ⟨(C5_observable_circuit_structure 2 (by norm_num)).1, ?_⟩
  rw [((C5_observable_circuit_structure 2 (by norm_num)).2.2 1 (by norm_num)).1]
  decide

/-- Claim C6 (refuted): the claim states that `observable` and
`observable_circuit` fail with a domain error for `n < 1`; in the code
neither function validates `n`, and both return a singleton list at
`n = 0` instead of failing. -/
theorem C6_builders_return_at_zero :
    (observable 0).length = 1 ∧ (observable_circuit 0).length = 1 := by
  constructor <;> rfl

/-- Claim C6, amended: for `n = 0` the builders raise no error:
`observable 0` returns the one-element list holding the single-qubit
identity and `observable_circuit 0` returns the one-element list holding
the empty circuit on zero qubits. -/
theorem C6_amended_no_domain_error :
    observable 0 = [Iop] ∧ observable_circuit 0 = [⟨0, []⟩] := by
  constructor <;> rfl

/-- Claim C7 (refuted): the claim states that a non-negligible imaginary
part in `main_diag·main_val + off_diag·off_val` makes `post_processing`
fail with a typed error; the code applies `np.real` and returns the real
part, silently discarding an imaginary part of 8 here. -/
theorem C7_imaginary_silently_discarded :
    post_processing 2 1 (PyValue.pyList [⟨1, 5⟩, ⟨0, 1⟩, ⟨0, 3⟩]) 1 1 = PyRes.ok 2 := by
  rw [post_processing_odd 2 1 [⟨1, 5⟩, ⟨0, 1⟩, ⟨0, 3⟩] 1 1 1 (by decide)]
  simp only [PyRes.ok.injEq, Finset.sum_range_one]
  norm_num [CQ.divQ, CQ.smulQ]

/-- Claim C7, amended: `post_processing` never fails on an imaginary
residue: on any odd-length list of complex values it returns `ok` of the
real part of the combination, whatever the imaginary part. -/
theorem C7_amended_real_part_returned (main_diag off_diag : ℚ) (sol : List CQ)
    (num_qubits : ℕ) (s : ℚ) (hs : 0 < s) (m : ℕ) (hlen : sol.length = 2 * m + 1) :
    post_processing main_diag off_diag (PyValue.pyList sol) num_qubits s
      = PyRes.ok ((CQ.smulQ main_diag (CQ.divQ (sol.getD 0 0) (s ^ 2)) +
          CQ.smulQ off_diag (∑ k ∈ Finset.range m,
            CQ.divQ (sol.getD (2 * k + 1) 0 - sol.getD (2 * k + 2) 0) (s ^ 2))).re) :=
  post_processing_odd main_diag off_diag sol num_qubits s m hlen

/-- Witness for the amended C7: a concrete complex input whose imaginary
part is discarded. -/
theorem C7_amended_real_part_returned_witness :
    post_processing 2 1 (PyValue.pyList [⟨1, 5⟩, ⟨3, 1⟩, ⟨1, 3⟩]) 1 1 = PyRes.ok 4 := by
  rw [C7_amended_real_part_returned 2 1 [⟨1, 5⟩, ⟨3, 1⟩, ⟨1, 3⟩] 1 1 (by norm_num) 1
    (by decide)]
  simp only [PyRes.ok.injEq, Finset.sum_range_one]
  norm_num [CQ.divQ, CQ.smulQ]

/-- Claim C8 (refuted): the claim states `post_processing` raises its
`ValueError` exactly on non-sequence inputs, accepting tuples and numeric
arrays; the code tests `isinstance(solution, list)`, so a non-`list`
sequence also raises `ValueError`. -/
theorem C8_non_list_sequence_rejected :
    post_processing 2 1 (PyValue.pySeq [⟨1, 0⟩, ⟨0, 0⟩, ⟨0, 0⟩]) 1 1
      = PyRes.error PyError.valueError := rfl

/-- Claim C8, amended: `post_processing` raises `ValueError` exactly when
`solution` is not a Python `list`: bare floats and non-`list` sequences
raise it, while a `list` input never produces `ValueError`. -/
theorem C8_amended_list_check (main_diag off_diag : ℚ) (num_qubits : ℕ) (s : ℚ)
    (y : ℚ) (xs : List CQ) :
    post_processing main_diag off_diag (PyValue.float y) num_qubits s
        = PyRes.error PyError.valueError
      ∧ post_processing main_diag off_diag (PyValue.pySeq xs) num_qubits s
        = PyRes.error PyError.valueError
      ∧ post_processing main_diag off_diag (PyValue.pyList xs) num_qubits s
        ≠ PyRes.error PyError.valueError := by
  refine ⟨rfl, rfl, ?_⟩
  rcases post_pyList_cases main_diag off_diag xs num_qubits s with ⟨v, hv⟩ | he
  · rw [hv]
    intro h
    exact PyRes.noConfusion h
  · rw [he]
    intro h
    exact PyError.noConfusion (PyRes.error.inj h)

/-- Witness for the amended C8 at concrete inputs. -/
theorem C8_amended_list_check_witness :
    post_processing 2 1 (PyValue.float 5) 1 1 = PyRes.error PyError.valueError
      ∧ post_processing 2 1 (PyValue.pySeq [⟨1, 0⟩]) 1 1 = PyRes.error PyError.valueError
      ∧ post_processing 2 1 (PyValue.pyList [⟨1, 0⟩]) 1 1 ≠ PyRes.error PyError.valueError :=
  C8_amended_list_check 2 1 1 1 5 [⟨1, 0⟩]

/-- Claim C9 (confirmed): the combining loop of `post_processing` is
index-safe exactly on odd-length lists: on odd length every access is in
range and a value is returned; on even length at least 2 the final
iteration's `solution[i+1]` is out of range, and the loop (and the whole
call) hits the `IndexError` branch. -/
theorem C9_loop_index_safety (main_diag off_diag : ℚ) (sol : List CQ) (num_qubits : ℕ)
    (s : ℚ) (hs : 0 < s) :
    (sol.length % 2 = 1 →
        ∃ v, post_processing main_diag off_diag (PyValue.pyList sol) num_qubits s
          = PyRes.ok v)
      ∧ (sol.length % 2 = 0 → 2 ≤ sol.length →
          offVal sol s = PyRes.error PyError.indexError
            ∧ post_processing main_diag off_diag (PyValue.pyList sol) num_qubits s
                = PyRes.error PyError.indexError) := by
  constructor
  · intro hodd
    have hm : sol.length = 2 * (sol.length / 2) + 1 := by omega
    exact ⟨_, post_processing_odd main_diag off_diag sol num_qubits s (sol.length / 2) hm⟩
  · intro heven h2
    have hm : sol.length = 2 * ((sol.length - 2) / 2) + 2 := by omega
    exact ⟨offVal_even sol s _ hm,
      post_processing_even main_diag off_diag sol num_qubits s _ hm⟩

/-- Witness for C9: an odd-length list returns a value, an even-length
list raises `IndexError`. -/
theorem C9_loop_index_safety_witness :
    (∃ v, post_processing 2 1 (PyValue.pyList [⟨1, 0⟩, ⟨2, 0⟩, ⟨3, 0⟩]) 1 1 = PyRes.ok v)
      ∧ post_processing 2 1 (PyValue.pyList [⟨1, 0⟩, ⟨2, 0⟩]) 1 1
          = PyRes.error PyError.indexError :=
  ⟨(C9_loop_index_safety 2 1 [⟨1, 0⟩, ⟨2, 0⟩, ⟨3, 0⟩] 1 1 (by norm_num)).1 (by decide),
   ((C9_loop_index_safety 2 1 [⟨1, 0⟩, ⟨2, 0⟩] 1 1 (by norm_num)).2 (by decide)
     (by decide)).2⟩

/-- Claim C10 (confirmed): `post_processing` never reads its `num_qubits`
argument, so its result is identical for any two values of it. -/
theorem C10_num_qubits_ignored (main_diag off_diag : ℚ) (solution : PyValue) (s : ℚ)
    (n1 n2 : ℕ) :
    post_processing main_diag off_diag solution n1 s
      = post_processing main_diag off_diag solution n2 s := rfl
